import Mathlib

/-!
ProGuard wildcard pattern compiler (libredex/ProguardRegex.cpp)

A shallow embedding of the four functions of `keep_rules::proguard_parser`:

* `form_member_regex`   (ProguardRegex.cpp, lines 18-40)
* `form_type_regex`     (ProguardRegex.cpp, lines 56-133)
* `has_special_char`    (ProguardRegex.cpp, lines 137-159)
* `convert_wildcard_type` (ProguardRegex.cpp, lines 163-201)

A `std::string` is a `List Char`.  `s[i]` is `charAt s i`: the character at
index `i`, and the terminating null character at index `s.size()`.
-/

set_option autoImplicit false

namespace ProguardRegex

/-! ## Data model -/

/-- The read `s[i]` of a `std::string`: the `i`-th character, the null
terminator at `i = s.size()`. -/
def charAt (s : List Char) (i : Nat) : Char := s.getD i '\x00'

/-! ## form_member_regex -/

/-- One iteration of the range-for of `form_member_regex` (lines 25-38): a `*`
first appends a `.`; a `?` appends a `.` and skips the copy (`continue`);
otherwise the character is copied. -/
def member_step (r : List Char) (ch : Char) : List Char :=
  let r1 := if ch = '*' then r ++ ".".toList else r
  if ch = '?' then r1 ++ ['.'] else r1 ++ [ch]

/-- The function `form_member_regex` (lines 18-40). -/
def form_member_regex (proguard_regex : List Char) : List Char :=
  if proguard_regex.isEmpty then ".*".toList
  else proguard_regex.foldl member_step []

/-! ## form_type_regex -/

/-- The constant `L_STAR_REGEX` (line 53). -/
def L_STAR_REGEX : List Char := "L**;".toList

/-- The body of the for loop of `form_type_regex` (lines 65-130) at index `i`
with output `r`: the index and the output the next iteration starts with
(the loop's own `i++` included).  `regex.size() - 1` and `regex.size() - 2`
are only evaluated with `i < regex.size()`, resp. `i + 1 < regex.size()`, so
the unsigned subtractions do not wrap. -/
def type_step (regex : List Char) (i : Nat) (r : List Char) : Nat × List Char :=
  let ch := charAt regex i
  if ch = '%' then (i + 1, r ++ "(?:B|S|I|J|Z|F|D|C|V)".toList)
  else if ch = '$' then (i + 1, r ++ "\\$".toList)
  else if ch = '/' then (i + 1, r ++ "\\/".toList)
  else if ch = '(' then (i + 1, r ++ "\\(".toList)
  else if ch = ')' then (i + 1, r ++ "\\)".toList)
  else if ch = '[' then (i + 1, r ++ "\\[".toList)
  else if ch = '?' then (i + 1, r ++ "[^\\/\\[]".toList)
  else if ch = '*' then
    if i ≠ regex.length - 1 ∧ charAt regex (i + 1) = '*' then
      if i ≠ regex.length - 2 ∧ charAt regex (i + 2) = '*' then
        (i + 2 + 1, r ++ "\\[*(?:(?:B|S|I|J|Z|F|D|C|V)|L.*;)".toList)
      else (i + 1 + 1, r ++ "(?:[^\\[]*)".toList)
    else (i + 1, r ++ "(?:[^\\/\\[]*)".toList)
  else if ch = '.' then
    if i ≠ regex.length - 1 ∧ charAt regex (i + 1) = '.' then
      if i ≠ regex.length - 2 ∧ charAt regex (i + 2) = '.' then
        (i + 2 + 1, r ++ "(?:\\[*(?:(?:B|S|I|J|Z|F|D|C)|L.*;))*".toList)
      else (i + 1, r ++ [ch])
    else (i + 1, r ++ [ch])
  else (i + 1, r ++ [ch])

/-- The for loop of `form_type_regex` (line 64): `fuel` bounds the number of
iterations; every iteration advances `i`, so `regex.size()` iterations are
enough. -/
def type_loop (regex : List Char) : Nat → Nat → List Char → List Char
  | 0, _, r => r
  | fuel + 1, i, r =>
    if i < regex.length then
      type_loop regex fuel (type_step regex i r).1 (type_step regex i r).2
    else r

/-- The function `form_type_regex` (lines 56-133). -/
def form_type_regex (proguard_regex : List Char) : List Char :=
  if proguard_regex.isEmpty then ".*".toList
  else
    let regex := if proguard_regex = "L*;".toList then L_STAR_REGEX else proguard_regex
    type_loop regex regex.length 0 []

/-! ## has_special_char -/

/-- The `switch` of `has_special_char` (lines 139-156): the cases that
return true. -/
def special_case (ch : Char) : Bool :=
  match ch with
  | '.' => true
  | '|' => true
  | '*' => true
  | '?' => true
  | '+' => true
  | '(' => true
  | ')' => true
  | '\x7b' => true
  | '\x7d' => true
  | '[' => true
  | ']' => true
  | '^' => true
  | '$' => true
  | '\\' => true
  | '%' => true
  | _ => false

/-- The function `has_special_char` (lines 137-159): the scan returns at the
first character the switch accepts. -/
def has_special_char : List Char → Bool
  | [] => false
  | ch :: rest => if special_case ch then true else has_special_char rest

/-! ## convert_wildcard_type -/

/-- The failure conditions of the component. -/
inductive Failure where
  | InvalidArgument
  deriving DecidableEq

/-- Modelled from the spec: the assertion `redex_assert` (declared outside the
sources at hand): a violated assertion ends the call with the
`InvalidArgument` condition. -/
def redex_assert (cond : Bool) : Except Failure Unit :=
  if cond then .ok () else .error Failure.InvalidArgument

/-- The local variables of the descriptor scan (lines 167-170). -/
structure ScanState where
  supress_semicolon : Bool
  keep_dots : Bool
  wildcard_descriptor : List Char
  deriving DecidableEq

/-- Lines 189-198 of the loop body: a `/` under `keep_dots` becomes a `.`, a
`;` under `supress_semicolon` is consumed and clears both flags, any other
character is copied. -/
def wildcard_copy (desc : List Char) (i : Nat) (st : ScanState) : ScanState :=
  if charAt desc i = '/' ∧ st.keep_dots = true then
    { st with wildcard_descriptor := st.wildcard_descriptor ++ ".".toList }
  else if charAt desc i = ';' ∧ st.supress_semicolon = true then
    { st with supress_semicolon := false, keep_dots := false }
  else
    { st with wildcard_descriptor := st.wildcard_descriptor ++ [charAt desc i] }

/-- The body of the for loop of `convert_wildcard_type` (lines 172-198).  The
conjunctions are those of the source, in its order; `desc[i + 3]` is read only
after `desc[i + 2] == '*'` (or `'/'`) succeeded. -/
def wildcard_step (desc : List Char) (i : Nat) (st : ScanState) : ScanState :=
  if charAt desc i = 'L' then
    if charAt desc (i + 1) = '%' then
      { st with supress_semicolon := true }
    else if charAt desc (i + 1) = '*' ∧ desc.length ≥ i + 2 ∧ charAt desc (i + 2) = '*'
        ∧ charAt desc (i + 3) = '*' then
      { st with supress_semicolon := true }
    else if charAt desc (i + 1) = '/' ∧ desc.length ≥ i + 2 ∧ charAt desc (i + 2) = '/'
        ∧ charAt desc (i + 3) = '/' then
      { st with supress_semicolon := true, keep_dots := true }
    else wildcard_copy desc i st
  else wildcard_copy desc i st

/-- The for loop of `convert_wildcard_type` (line 171): `n` iterations from
index `i`; the body never assigns `i`, so the loop runs `desc.size()`
iterations from index 0.  The index is a natural number: descriptors are
shorter than the 2^32 characters at which an `unsigned int` would wrap. -/
def wildcard_loop (desc : List Char) : Nat → Nat → ScanState → ScanState
  | 0, _, st => st
  | n + 1, i, st => wildcard_loop desc n (i + 1) (wildcard_step desc i st)

/-- Lines 167-200: the scan of the converter's descriptor `desc`. -/
def wildcard_scan (desc : List Char) : List Char :=
  (wildcard_loop desc desc.length 0
    { supress_semicolon := false, keep_dots := false, wildcard_descriptor := [] }).wildcard_descriptor

/-- What a call leaves behind: the arguments the external converter
`convert_type` was invoked with, and the value returned or the failure
raised. -/
structure Outcome where
  convert_type_calls : List (List Char)
  result : Except Failure (List Char)

/-- The function `convert_wildcard_type` (lines 163-201), over the external
converter `convert_type`. -/
def convert_wildcard_type (convert_type : List Char → List Char) (typ : List Char) : Outcome :=
  match redex_assert (!typ.isEmpty) with
  | .error e => { convert_type_calls := [], result := .error e }
  | .ok _ =>
    let desc := convert_type typ
    { convert_type_calls := [typ], result := .ok (wildcard_scan desc) }

/-! ## The tables and sets of the specification -/

/-- The member table of the specification: `*` gives `.*`, `?` gives `.`,
any other character gives itself. -/
def member_image (c : Char) : List Char :=
  if c = '*' then ".*".toList else if c = '?' then ".".toList else [c]

/-- The reserved set of the specification. -/
def reserved_set : List Char :=
  ['.', '|', '*', '?', '+', '(', ')', '\x7b', '\x7d', '[', ']', '^', '$', '\\', '%']

/-- The type table of the specification for single characters: `%`, `$`, `/`,
`(`, `)`, `[`, `?` and a lone `*` have the images below, every other
character (a `.` too) gives itself. -/
def type_image (c : Char) : List Char :=
  if c = '%' then "(?:B|S|I|J|Z|F|D|C|V)".toList
  else if c = '$' then "\\$".toList
  else if c = '/' then "\\/".toList
  else if c = '(' then "\\(".toList
  else if c = ')' then "\\)".toList
  else if c = '[' then "\\[".toList
  else if c = '?' then "[^\\/\\[]".toList
  else if c = '*' then "(?:[^\\/\\[]*)".toList
  else [c]

/-- The characters the type compiler escapes with a backslash. -/
def escape_set : List Char := ['$', '/', '(', ')', '[']

/-- The characters that start a wildcard token of the type grammar. -/
def wildcard_set : List Char := ['%', '?', '*', '.']

/-! ## The descriptor scan, seen from the unread suffix -/

/-- The scan of `convert_wildcard_type` over the unread suffix of the
descriptor: the loop body reads only from the current index on. -/
def scan_suffix : List Char → ScanState → ScanState
  | [], st => st
  | c :: t, st => scan_suffix t (wildcard_step (c :: t) 0 st)

/-- The replacement of `/` by `.` under `keep_dots`. -/
def dots (keep_dots : Bool) (c : Char) : Char :=
  if c = '/' ∧ keep_dots = true then '.' else c

/-! ## The fragments and the loop body of form_type_regex as a token -/

/-- The fragment emitted for `%` (line 69). -/
def frag_primitive : List Char := "(?:B|S|I|J|Z|F|D|C|V)".toList

/-- The fragment emitted for `?` (line 98). -/
def frag_question : List Char := "[^\\/\\[]".toList

/-- The fragment emitted for `***` (line 105). -/
def frag_any_type : List Char := "\\[*(?:(?:B|S|I|J|Z|F|D|C|V)|L.*;)".toList

/-- The fragment emitted for `**` (line 111). -/
def frag_two_stars : List Char := "(?:[^\\[]*)".toList

/-- The fragment emitted for a single `*` (line 117). -/
def frag_one_star : List Char := "(?:[^\\/\\[]*)".toList

/-- The fragment emitted for `...` (line 124). -/
def frag_varargs : List Char := "(?:\\[*(?:(?:B|S|I|J|Z|F|D|C)|L.*;))*".toList

/-- The characters the loop body of `form_type_regex` never copies. -/
def translated_set : List Char := ['%', '$', '/', '(', ')', '[', '?', '*']

/-- What the loop body of `form_type_regex` consumes and emits, as a function
of the character at hand `ch`, the two characters after it `c1`, `c2`, and
the outcome of the guards `i != regex.size() - 1` (`g1`) and
`i != regex.size() - 2` (`g2`): the number of characters consumed and the
fragment appended.  `type_step_eq_token` derives it from `type_step`. -/
def type_token (ch c1 c2 : Char) (g1 g2 : Bool) : Nat × List Char :=
  if ch = '%' then (1, frag_primitive)
  else if ch = '$' then (1, ['\\', '$'])
  else if ch = '/' then (1, ['\\', '/'])
  else if ch = '(' then (1, ['\\', '('])
  else if ch = ')' then (1, ['\\', ')'])
  else if ch = '[' then (1, ['\\', '['])
  else if ch = '?' then (1, frag_question)
  else if ch = '*' then
    if g1 = true ∧ c1 = '*' then
      if g2 = true ∧ c2 = '*' then (3, frag_any_type)
      else (2, frag_two_stars)
    else (1, frag_one_star)
  else if ch = '.' then
    if g1 = true ∧ c1 = '.' then
      if g2 = true ∧ c2 = '.' then (3, frag_varargs)
      else (1, [ch])
    else (1, [ch])
  else (1, [ch])

/-- The token the loop body of `form_type_regex` sees at index `i`. -/
def token_at (regex : List Char) (i : Nat) : Nat × List Char :=
  type_token (charAt regex i) (charAt regex (i + 1)) (charAt regex (i + 2))
    (decide (i ≠ regex.length - 1)) (decide (i ≠ regex.length - 2))

/-- The scan of `form_type_regex` over a whole string: the loop of line 64
from index 0 with empty output. -/
def type_scan (regex : List Char) : List Char :=
  type_loop regex regex.length 0 []

/-! ## The reads of the two scans -/

/-- The indices of `regex` the loop body of `form_type_regex` reads at index
`i` (lines 65-129), in the order of evaluation: `regex[i]` (line 65) and, in
the branches for `*` and `.`, the lookaheads `regex[i + 1]` and
`regex[i + 2]`, each reached only after its guard `i != regex.size() - 1`,
`i != regex.size() - 2` and the test before it succeeded (`&&` does not
evaluate its right operand otherwise).  The other branches read nothing
more. -/
def type_step_reads (regex : List Char) (i : Nat) : List Nat :=
  let ch := charAt regex i
  if ch = '*' then
    if i ≠ regex.length - 1 then
      if charAt regex (i + 1) = '*' then
        if i ≠ regex.length - 2 then [i, i + 1, i + 2] else [i, i + 1]
      else [i, i + 1]
    else [i]
  else if ch = '.' then
    if i ≠ regex.length - 1 then
      if charAt regex (i + 1) = '.' then
        if i ≠ regex.length - 2 then [i, i + 1, i + 2] else [i, i + 1]
      else [i, i + 1]
    else [i]
  else [i]

/-- The reads of the for loop of `form_type_regex`, iteration after
iteration, along the indices `type_step` visits. -/
def type_loop_reads (regex : List Char) : Nat → Nat → List Nat
  | 0, _ => []
  | fuel + 1, i =>
    if i < regex.length then
      type_step_reads regex i ++ type_loop_reads regex fuel (type_step regex i []).1
    else []

/-- The reads of `form_type_regex` in the string it scans, which is
`L_STAR_REGEX` for the input `L*;` and the input otherwise. -/
def form_type_regex_reads (proguard_regex : List Char) : List Nat :=
  if proguard_regex.isEmpty then []
  else
    let regex := if proguard_regex = "L*;".toList then L_STAR_REGEX else proguard_regex
    type_loop_reads regex regex.length 0

/-- The reads of one condition `desc[i + 1] == x && desc.size() >= i + 2 &&
desc[i + 2] == x && desc[i + 3] == x` (lines 177-178 and 182-183), in the
order of evaluation. -/
def triple_reads (desc : List Char) (i : Nat) (x : Char) : List Nat :=
  (i + 1) :: (if charAt desc (i + 1) = x ∧ desc.length ≥ i + 2 then
      (i + 2) :: (if charAt desc (i + 2) = x then [i + 3] else [])
    else [])

/-- The lookahead reads of the loop body of `convert_wildcard_type` at index
`i` (lines 172-188): none unless `desc[i] == 'L'`; then `desc[i + 1]` for
`%`, and the conditions for `***` and `///`, each evaluated only when the
condition before it failed. -/
def wildcard_step_reads (desc : List Char) (i : Nat) : List Nat :=
  if charAt desc i = 'L' then
    (i + 1) ::
      (if charAt desc (i + 1) = '%' then []
       else triple_reads desc i '*' ++
        (if charAt desc (i + 1) = '*' ∧ desc.length ≥ i + 2 ∧ charAt desc (i + 2) = '*'
            ∧ charAt desc (i + 3) = '*' then []
         else triple_reads desc i '/'))
  else []

/-! ## The images and predicates of the later claims -/

/-- The image of a character under the type compiler when the compiler only
escapes the package separator. -/
def slash_image (c : Char) : List Char :=
  if c = '/' then "\\/".toList else [c]

/-- The image of a run of `n` stars in the specification: `n / 3` copies of
the `***` fragment, then the `**` fragment if `n % 3 = 2`, the `*` fragment
if `n % 3 = 1`, nothing if `n % 3 = 0`. -/
def star_run_image (n : Nat) : List Char :=
  (List.replicate (n / 3) frag_any_type).flatten
    ++ (if n % 3 = 2 then frag_two_stars else if n % 3 = 1 then frag_one_star else [])

/-- The image of a run of `n` dots in the specification: `n / 3` copies of
the varargs fragment, then `n % 3` literal dots. -/
def dot_run_image (n : Nat) : List Char :=
  (List.replicate (n / 3) frag_varargs).flatten ++ List.replicate (n % 3) '.'

/-- The boundary condition of compositionality: the last character of `a`
and the first character of `b` are not both `*` and not both `.`. -/
def boundary_ok (a b : List Char) : Prop :=
  ¬ (a.getLast? = some '*' ∧ b.head? = some '*')
  ∧ ¬ (a.getLast? = some '.' ∧ b.head? = some '.')

/-- No dangling quantifier and no raw `?`: in `out` every `*` stands right
after `.`, `]`, `[` or `)`, and every `?` stands right after `(` and right
before `:`. -/
def quantifier_safe (out : List Char) : Prop :=
  ∀ (pre post : List Char) (c : Char), out = pre ++ c :: post →
    (c = '*' → pre.getLast? ∈ [some '.', some ']', some '[', some ')'])
    ∧ (c = '?' → pre.getLast? = some '(' ∧ post.head? = some ':')

/-! ## Lemmas -/

theorem foldl_member_step (s r : List Char) :
    s.foldl member_step r = r ++ s.flatMap member_image := by
  induction s generalizing r with
  | nil => simp
  | cons c t ih =>
    rw [List.foldl_cons, ih, List.flatMap_cons]
    by_cases h1 : c = '*'
    · subst h1; simp [member_step, member_image]
    · by_cases h2 : c = '?'
      · subst h2; simp [member_step, member_image]
      · simp [member_step, member_image, h1, h2]

theorem form_member_regex_of_ne_nil (s : List Char) (hs : s ≠ []) :
    form_member_regex s = s.flatMap member_image := by
  cases s with
  | nil => exact absurd rfl hs
  | cons c t =>
    simp only [form_member_regex, List.isEmpty_cons, Bool.false_eq_true, if_false]
    rw [foldl_member_step, List.nil_append]

theorem special_case_iff (c : Char) : special_case c = true ↔ c ∈ reserved_set := by
  unfold special_case reserved_set
  split <;> simp_all

theorem has_special_char_iff (s : List Char) :
    has_special_char s = true ↔ ∃ c ∈ s, c ∈ reserved_set := by
  induction s with
  | nil => simp [has_special_char]
  | cons c t ih =>
    by_cases h : special_case c = true
    · simp [has_special_char, h, (special_case_iff c).mp h]
    · have h2 : c ∉ reserved_set := fun hc => h ((special_case_iff c).mpr hc)
      simp [has_special_char, h, ih, h2]

theorem charAt_append_right (pre suf : List Char) (k : Nat) :
    charAt (pre ++ suf) (pre.length + k) = charAt suf k := by
  unfold charAt
  rw [List.getD_append_right _ _ _ _ (Nat.le_add_right _ _), Nat.add_sub_cancel_left]

theorem charAt_append_cons (pre suf : List Char) (c : Char) :
    charAt (pre ++ c :: suf) pre.length = c := by
  have h := charAt_append_right pre (c :: suf) 0
  simpa [charAt] using h

theorem charAt_append_cons_succ (pre suf : List Char) (c : Char) (k : Nat) :
    charAt (pre ++ c :: suf) (pre.length + (k + 1)) = charAt suf k := by
  rw [charAt_append_right]
  simp [charAt]

/-- Where no second `*` and no two further `.` follow, the loop body
translates the character at hand by the single-character table. -/
theorem type_step_single (pre suf r : List Char) (c : Char)
    (hstar : c = '*' → charAt suf 0 ≠ '*')
    (hdot : c = '.' → ¬ (charAt suf 0 = '.' ∧ charAt suf 1 = '.')) :
    type_step (pre ++ c :: suf) pre.length r = (pre.length + 1, r ++ type_image c) := by
  have h0 : charAt (pre ++ c :: suf) pre.length = c := charAt_append_cons pre suf c
  have h1 : charAt (pre ++ c :: suf) (pre.length + 1) = charAt suf 0 :=
    charAt_append_cons_succ pre suf c 0
  have h2 : charAt (pre ++ c :: suf) (pre.length + 2) = charAt suf 1 :=
    charAt_append_cons_succ pre suf c 1
  unfold type_step
  simp only [h0, h1, h2]
  unfold type_image
  by_cases e1 : c = '%'
  · simp [e1]
  by_cases e2 : c = '$'
  · simp [e2]
  by_cases e3 : c = '/'
  · simp [e3]
  by_cases e4 : c = '('
  · simp [e4]
  by_cases e5 : c = ')'
  · simp [e5]
  by_cases e6 : c = '['
  · simp [e6]
  by_cases e7 : c = '?'
  · simp [e7]
  by_cases e8 : c = '*'
  · have := hstar e8
    simp [e8, this]
  by_cases e9 : c = '.'
  · have hd := hdot e9
    subst e9
    by_cases g1 : charAt suf 0 = '.'
    · have g2 : charAt suf 1 ≠ '.' := fun h => hd ⟨g1, h⟩
      simp [g1, g2]
    · simp [g1]
  simp [e1, e2, e3, e4, e5, e6, e7, e8, e9]

theorem le_fst_ite (c : Prop) [Decidable c] (a b : Nat × List Char) (n : Nat)
    (ha : n ≤ a.1) (hb : n ≤ b.1) : n ≤ (if c then a else b).1 := by
  split <;> assumption

theorem type_step_advances (regex r : List Char) (i : Nat) :
    i + 1 ≤ (type_step regex i r).1 := by
  unfold type_step
  repeat' apply le_fst_ite
  all_goals (dsimp only; omega)

/-- Once the fuel covers the unread part of the input, more fuel does not
change the result of the loop: the loop has ended by its own test. -/
theorem type_loop_fuel (regex : List Char) (fuel : Nat) :
    ∀ (k i : Nat) (r : List Char), regex.length ≤ i + fuel →
      type_loop regex (fuel + k) i r = type_loop regex fuel i r := by
  induction fuel with
  | zero =>
    intro k i r h
    cases k with
    | zero => rfl
    | succ k =>
      have hge : ¬ i < regex.length := by omega
      simp [type_loop, hge]
  | succ f ih =>
    intro k i r h
    rw [show f + 1 + k = (f + k) + 1 by omega, type_loop, type_loop]
    by_cases hlt : i < regex.length
    · have hadv := type_step_advances regex r i
      rw [if_pos hlt, if_pos hlt, ih k _ _ (by omega)]
    · rw [if_neg hlt, if_neg hlt]

theorem charAt_zero_eq (t : List Char) (c : Char) (hc : c ≠ '\x00') (h : charAt t 0 = c) :
    ∃ u, t = c :: u := by
  cases t with
  | nil => exact absurd h.symm hc
  | cons d u => exact ⟨u, by simpa [charAt] using h⟩

theorem charAt_one_eq (t : List Char) (c : Char) (hc : c ≠ '\x00') (h : charAt t 1 = c) :
    ∃ d u, t = d :: c :: u := by
  cases t with
  | nil => exact absurd h.symm hc
  | cons d u =>
    have h2 : charAt u 0 = c := by simpa [charAt] using h
    obtain ⟨v, hv⟩ := charAt_zero_eq u c hc h2
    exact ⟨d, v, by rw [hv]⟩

/-- On a range without `**` and without `...` the loop translates every
character by the single-character table, and the fuel is enough. -/
theorem type_loop_single (suf : List Char) :
    ∀ (pre r : List Char) (fuel : Nat), suf.length ≤ fuel →
      ¬ ("**".toList <:+: suf) → ¬ ("...".toList <:+: suf) →
      type_loop (pre ++ suf) fuel pre.length r = r ++ suf.flatMap type_image := by
  induction suf with
  | nil =>
    intro pre r fuel _ _ _
    cases fuel with
    | zero => simp [type_loop]
    | succ f => simp [type_loop]
  | cons c t ih =>
    intro pre r fuel hfuel hss hddd
    cases fuel with
    | zero => simp at hfuel
    | succ f =>
      have hlt : pre.length < (pre ++ c :: t).length := by simp
      have hstar : c = '*' → charAt t 0 ≠ '*' := by
        intro hc h0
        obtain ⟨u, hu⟩ := charAt_zero_eq t '*' (by decide) h0
        exact hss ⟨[], u, by simp [hc, hu]⟩
      have hdot : c = '.' → ¬ (charAt t 0 = '.' ∧ charAt t 1 = '.') := by
        intro hc h01
        obtain ⟨d, u, hu⟩ := charAt_one_eq t '.' (by decide) h01.2
        have hd : d = '.' := by
          have := h01.1
          rw [hu] at this
          simpa [charAt] using this
        exact hddd ⟨[], u, by simp [hc, hu, hd]⟩
      have hss2 : ¬ ("**".toList <:+: t) := fun h => hss (h.trans (List.suffix_cons c t).isInfix)
      have hddd2 : ¬ ("...".toList <:+: t) := fun h => hddd (h.trans (List.suffix_cons c t).isInfix)
      have hlen : t.length ≤ f := by simpa using hfuel
      have hih := ih (pre ++ [c]) (r ++ type_image c) f hlen hss2 hddd2
      rw [type_loop, if_pos hlt, type_step_single pre t r c hstar hdot]
      simp only [List.append_assoc, List.singleton_append, List.length_append,
        List.length_singleton] at hih
      rw [hih, List.flatMap_cons]

theorem form_type_regex_eq_loop (s : List Char) (hs : s ≠ []) (hl : s ≠ "L*;".toList) :
    form_type_regex s = type_loop s s.length 0 [] := by
  cases s with
  | nil => exact absurd rfl hs
  | cons c t => simp only [form_type_regex, List.isEmpty_cons, Bool.false_eq_true, if_false, if_neg hl]

theorem form_type_regex_single (s : List Char) (hs : s ≠ []) (hl : s ≠ "L*;".toList)
    (hss : ¬ ("**".toList <:+: s)) (hddd : ¬ ("...".toList <:+: s)) :
    form_type_regex s = s.flatMap type_image := by
  rw [form_type_regex_eq_loop s hs hl]
  have h := type_loop_single s [] [] s.length (Nat.le_refl _) hss hddd
  simpa using h

theorem type_image_escape (c : Char) (h : c ∈ escape_set) : type_image c = ['\\', c] := by
  simp only [escape_set, List.mem_cons, List.mem_singleton, List.not_mem_nil, or_false] at h
  rcases h with h | h | h | h | h <;> subst h <;> decide

theorem type_image_plain (c : Char) (h : c ∉ escape_set) (hw : c ∉ wildcard_set) :
    type_image c = [c] := by
  simp only [escape_set, wildcard_set, List.mem_cons, List.mem_singleton, List.not_mem_nil,
    or_false, not_or] at h hw
  simp [type_image, h, hw]

theorem backslash_not_escape : '\\' ∉ escape_set := by decide

/-- The image of a spec without wildcard characters ends with the last
character of the spec. -/
theorem flatMap_type_image_suffix (s : List Char) (hw : ∀ c ∈ s, c ∉ wildcard_set) (b : Char)
    (h : [b] <:+ s.flatMap type_image) : b ∈ s := by
  induction s using List.reverseRecOn with
  | nil => simp at h
  | append_singleton t x _ =>
    have hx : x ∉ wildcard_set := hw x (by simp)
    rw [List.flatMap_append, List.flatMap_singleton] at h
    have hend : [x] <:+ t.flatMap type_image ++ type_image x := by
      by_cases he : x ∈ escape_set
      · rw [type_image_escape x he]
        exact ⟨t.flatMap type_image ++ ['\\'], by simp⟩
      · rw [type_image_plain x he hx]
        exact ⟨t.flatMap type_image, rfl⟩
    have hbx : [b] = [x] :=
      List.IsSuffix.eq_of_length ((List.suffix_or_suffix_of_suffix h hend).elim id
        (fun h2 => by rw [List.IsSuffix.eq_of_length h2 rfl])) rfl
    have : b = x := by simpa using hbx
    simp [this]

/-- In the image of a spec without wildcard characters every escaped
character stands right after a backslash; that backslash follows a second
one only where the spec itself holds a backslash. -/
theorem flatMap_type_image_escaped (s : List Char) (hw : ∀ c ∈ s, c ∉ wildcard_set) :
    ∀ (pre post : List Char) (c : Char), s.flatMap type_image = pre ++ c :: post →
      c ∈ escape_set →
      ['\\'] <:+ pre ∧ ('\\' ∉ s → ¬ (['\\', '\\'] <:+ pre)) := by
  induction s using List.reverseRecOn with
  | nil => intro pre post c h; simp at h
  | append_singleton t x ih =>
    intro pre post c h hc
    have hwt : ∀ d ∈ t, d ∉ wildcard_set := fun d hd => hw d (by simp [hd])
    have hx : x ∉ wildcard_set := hw x (by simp)
    rw [List.flatMap_append, List.flatMap_singleton] at h
    rcases List.append_eq_append_iff.mp h with ⟨a, h1, h2⟩ | ⟨a, h1, h2⟩
    · -- the occurrence lies in the image of `x`
      by_cases he : x ∈ escape_set
      · rw [type_image_escape x he] at h2
        cases a with
        | nil =>
          simp only [List.nil_append, List.cons.injEq] at h2
          exact absurd (h2.1 ▸ hc) backslash_not_escape
        | cons d a2 =>
          cases a2 with
          | nil =>
            simp only [List.cons_append, List.nil_append, List.cons.injEq] at h2
            obtain ⟨hd, -, -⟩ := h2
            subst hd
            subst h1
            refine ⟨⟨t.flatMap type_image, rfl⟩, fun hb hss => ?_⟩
            have h3 : ['\\'] <:+ t.flatMap type_image := by
              obtain ⟨u, hu⟩ := hss
              refine ⟨u, ?_⟩
              have hu2 : (u ++ ['\\']) ++ ['\\'] = t.flatMap type_image ++ ['\\'] := by
                simpa using hu
              exact List.append_cancel_right hu2
            exact hb (by simp [flatMap_type_image_suffix t hwt '\\' h3])
          | cons d2 a3 =>
            simp at h2
      · rw [type_image_plain x he hx] at h2
        cases a with
        | nil =>
          simp only [List.nil_append, List.cons.injEq] at h2
          exact absurd (h2.1 ▸ hc) he
        | cons d a2 => simp at h2
    · -- the occurrence lies in the image of `t`, or heads the image of `x`
      cases a with
      | nil =>
        exfalso
        by_cases he : x ∈ escape_set
        · rw [type_image_escape x he] at h2
          simp only [List.nil_append, List.cons.injEq] at h2
          exact backslash_not_escape (h2.1 ▸ hc)
        · rw [type_image_plain x he hx] at h2
          simp only [List.nil_append, List.cons.injEq] at h2
          exact he (h2.1 ▸ hc)
      | cons d a2 =>
        simp only [List.cons_append, List.cons.injEq] at h2
        obtain ⟨hd, -⟩ := h2
        subst hd
        obtain ⟨g1, g2⟩ := ih hwt pre a2 c h1 hc
        exact ⟨g1, fun hb => g2 (fun hbt => hb (by simp [hbt]))⟩

theorem flatMap_type_image_countP (s : List Char) (hw : ∀ c ∈ s, c ∉ wildcard_set) :
    (s.flatMap type_image).countP (fun c => decide (c ∈ escape_set))
      = s.countP (fun c => decide (c ∈ escape_set)) := by
  induction s with
  | nil => rfl
  | cons x t ih =>
    have hwt : ∀ d ∈ t, d ∉ wildcard_set := fun d hd => hw d (by simp [hd])
    have hx : x ∉ wildcard_set := hw x (by simp)
    rw [List.flatMap_cons, List.countP_append, ih hwt]
    by_cases he : x ∈ escape_set
    · rw [type_image_escape x he]
      simp [List.countP_cons, he, backslash_not_escape]
      omega
    · rw [type_image_plain x he hx]
      simp [List.countP_cons, he]

theorem form_type_regex_plain (s : List Char) (hs : s ≠ []) (hw : ∀ c ∈ s, c ∉ wildcard_set) :
    form_type_regex s = s.flatMap type_image := by
  have hstar : '*' ∉ s := fun h => hw _ h (by decide)
  have hdot : '.' ∉ s := fun h => hw _ h (by decide)
  refine form_type_regex_single s hs ?_ ?_ ?_
  · intro h; exact hstar (by rw [h]; decide)
  · intro h; exact hstar (h.subset (by decide))
  · intro h; exact hdot (h.subset (by decide))

theorem wildcard_copy_append (pre suf : List Char) (k : Nat) (st : ScanState) :
    wildcard_copy (pre ++ suf) (pre.length + k) st = wildcard_copy suf k st := by
  unfold wildcard_copy
  rw [charAt_append_right]

theorem wildcard_step_append (pre suf : List Char) (k : Nat) (st : ScanState) :
    wildcard_step (pre ++ suf) (pre.length + k) st = wildcard_step suf k st := by
  unfold wildcard_step
  have e1 : pre.length + k + 1 = pre.length + (k + 1) := by omega
  have e2 : pre.length + k + 2 = pre.length + (k + 2) := by omega
  have e3 : pre.length + k + 3 = pre.length + (k + 3) := by omega
  have el : (pre ++ suf).length ≥ pre.length + (k + 2) ↔ suf.length ≥ k + 2 := by
    simp only [List.length_append, ge_iff_le, Nat.add_le_add_iff_left]
  simp only [e1, e2, e3, charAt_append_right, el, wildcard_copy_append]

theorem wildcard_loop_eq_scan_suffix (suf : List Char) :
    ∀ (pre : List Char) (st : ScanState),
      wildcard_loop (pre ++ suf) suf.length pre.length st = scan_suffix suf st := by
  induction suf with
  | nil => intro pre st; rfl
  | cons c t ih =>
    intro pre st
    have h := ih (pre ++ [c]) (wildcard_step (c :: t) 0 st)
    simp only [List.append_assoc, List.singleton_append, List.length_append,
      List.length_singleton] at h
    have hs := wildcard_step_append pre (c :: t) 0 st
    rw [Nat.add_zero] at hs
    rw [List.length_cons, wildcard_loop, hs, h, scan_suffix]

theorem wildcard_scan_eq (desc : List Char) :
    wildcard_scan desc = (scan_suffix desc
      { supress_semicolon := false, keep_dots := false, wildcard_descriptor := [] }).wildcard_descriptor := by
  have h := wildcard_loop_eq_scan_suffix desc []
    { supress_semicolon := false, keep_dots := false, wildcard_descriptor := [] }
  simp only [List.nil_append, List.length_nil] at h
  rw [wildcard_scan, h]

/-- Outside a suppressed span the scan copies a stretch without `L`. -/
theorem scan_suffix_idle (x : List Char) (hL : 'L' ∉ x) :
    ∀ (y out : List Char),
      scan_suffix (x ++ y) { supress_semicolon := false, keep_dots := false, wildcard_descriptor := out }
        = scan_suffix y
            { supress_semicolon := false, keep_dots := false, wildcard_descriptor := out ++ x } := by
  induction x with
  | nil => intro y out; simp
  | cons c t ih =>
    intro y out
    have hc : c ≠ 'L' := fun h => hL (by simp [h])
    have ht : 'L' ∉ t := fun h => hL (by simp [h])
    have hstep : wildcard_step (c :: (t ++ y)) 0
        { supress_semicolon := false, keep_dots := false, wildcard_descriptor := out }
        = { supress_semicolon := false, keep_dots := false, wildcard_descriptor := out ++ [c] } := by
      simp [wildcard_step, wildcard_copy, charAt, hc]
    rw [List.cons_append, scan_suffix, hstep, ih ht]
    simp

/-- Inside a suppressed span the scan copies a stretch without `L` and `;`,
with `/` turned into `.` under `keep_dots`. -/
theorem scan_suffix_suppressed (x : List Char) (hL : 'L' ∉ x) (hS : ';' ∉ x) (kd : Bool) :
    ∀ (y out : List Char),
      scan_suffix (x ++ y) { supress_semicolon := true, keep_dots := kd, wildcard_descriptor := out }
        = scan_suffix y
            { supress_semicolon := true, keep_dots := kd,
              wildcard_descriptor := out ++ x.map (dots kd) } := by
  induction x with
  | nil => intro y out; simp
  | cons c t ih =>
    intro y out
    have hc : c ≠ 'L' := fun h => hL (by simp [h])
    have hs : c ≠ ';' := fun h => hS (by simp [h])
    have htL : 'L' ∉ t := fun h => hL (by simp [h])
    have htS : ';' ∉ t := fun h => hS (by simp [h])
    have hstep : wildcard_step (c :: (t ++ y)) 0
        { supress_semicolon := true, keep_dots := kd, wildcard_descriptor := out }
        = { supress_semicolon := true, keep_dots := kd,
            wildcard_descriptor := out ++ [dots kd c] } := by
      by_cases h : c = '/' ∧ kd = true
      · simp [wildcard_step, wildcard_copy, charAt, hc, dots, h]
      · simp [wildcard_step, wildcard_copy, charAt, hc, hs, dots, h]
    rw [List.cons_append, scan_suffix, hstep, ih htL htS]
    simp

theorem scan_suffix_L_percent (y : List Char) (st : ScanState) :
    scan_suffix ('L' :: '%' :: y) st
      = scan_suffix ('%' :: y) { st with supress_semicolon := true } := by
  rw [scan_suffix]
  simp [wildcard_step, charAt]

theorem scan_suffix_L_stars (y : List Char) (st : ScanState) :
    scan_suffix ('L' :: '*' :: '*' :: '*' :: y) st
      = scan_suffix ('*' :: '*' :: '*' :: y) { st with supress_semicolon := true } := by
  rw [scan_suffix]
  simp [wildcard_step, charAt]

theorem scan_suffix_L_slashes (y : List Char) (st : ScanState) :
    scan_suffix ('L' :: '/' :: '/' :: '/' :: y) st
      = scan_suffix ('/' :: '/' :: '/' :: y)
          { st with supress_semicolon := true, keep_dots := true } := by
  rw [scan_suffix]
  simp [wildcard_step, charAt]

theorem scan_suffix_semicolon (y out : List Char) (kd : Bool) :
    scan_suffix (';' :: y) { supress_semicolon := true, keep_dots := kd, wildcard_descriptor := out }
      = scan_suffix y
          { supress_semicolon := false, keep_dots := false, wildcard_descriptor := out } := by
  rw [scan_suffix]
  simp [wildcard_step, wildcard_copy, charAt]

theorem map_dots_false (x : List Char) : x.map (dots false) = x := by
  induction x with
  | nil => rfl
  | cons c t ih => simp [dots, ih]

theorem map_dots_true (x : List Char) :
    x.map (dots true) = x.map (fun c => if c = '/' then '.' else c) := by
  simp [dots]

/-- The scan of a descriptor with one bracketed wildcard `L w m ;`, where `w`
is `%` or `***`. -/
theorem wildcard_scan_bracketed (a m b w : List Char)
    (hw : w = "%".toList ∨ w = "***".toList)
    (ha : 'L' ∉ a) (hmL : 'L' ∉ m) (hmS : ';' ∉ m) (hb : 'L' ∉ b) :
    wildcard_scan (a ++ "L".toList ++ w ++ m ++ ";".toList ++ b) = a ++ w ++ m ++ b := by
  have hwL : 'L' ∉ w ++ m := by
    rcases hw with h | h <;> subst h <;> simp [hmL]
  have hwS : ';' ∉ w ++ m := by
    rcases hw with h | h <;> subst h <;> simp [hmS]
  have hshape : a ++ "L".toList ++ w ++ m ++ ";".toList ++ b
      = a ++ ('L' :: ((w ++ m) ++ (';' :: (b ++ [])))) := by simp
  have htrig : ∀ st : ScanState, scan_suffix ('L' :: ((w ++ m) ++ (';' :: (b ++ [])))) st
      = scan_suffix ((w ++ m) ++ (';' :: (b ++ []))) { st with supress_semicolon := true } := by
    intro st
    rcases hw with h | h <;> subst h
    · exact scan_suffix_L_percent _ st
    · exact scan_suffix_L_stars _ st
  rw [wildcard_scan_eq, hshape, scan_suffix_idle a ha, htrig,
    scan_suffix_suppressed (w ++ m) hwL hwS false, scan_suffix_semicolon,
    scan_suffix_idle b hb, map_dots_false]
  simp [scan_suffix]

/-- The scan of a descriptor with one bracketed triple slash `L /// m ;`. -/
theorem wildcard_scan_triple_slash (a m b : List Char)
    (ha : 'L' ∉ a) (hmL : 'L' ∉ m) (hmS : ';' ∉ m) (hb : 'L' ∉ b) :
    wildcard_scan (a ++ "L///".toList ++ m ++ ";".toList ++ b)
      = a ++ "...".toList ++ m.map (fun c => if c = '/' then '.' else c) ++ b := by
  have hwL : 'L' ∉ "///".toList ++ m := by simp [hmL]
  have hwS : ';' ∉ "///".toList ++ m := by simp [hmS]
  have hshape : a ++ "L///".toList ++ m ++ ";".toList ++ b
      = a ++ ('L' :: '/' :: '/' :: '/' :: (m ++ (';' :: (b ++ [])))) := by simp
  have hback : '/' :: '/' :: '/' :: (m ++ (';' :: (b ++ [])))
      = ("///".toList ++ m) ++ (';' :: (b ++ [])) := by simp
  rw [wildcard_scan_eq, hshape, scan_suffix_idle a ha, scan_suffix_L_slashes, hback,
    scan_suffix_suppressed ("///".toList ++ m) hwL hwS true, scan_suffix_semicolon,
    scan_suffix_idle b hb, map_dots_true]
  simp [scan_suffix]

/-- At an `L` that starts none of `L%`, `L***`, `L///` the loop body copies
the `L`. -/
theorem wildcard_step_L_plain (t : List Char) (st : ScanState)
    (h1 : ¬ ("L%".toList <+: 'L' :: t)) (h2 : ¬ ("L***".toList <+: 'L' :: t))
    (h3 : ¬ ("L///".toList <+: 'L' :: t)) :
    wildcard_step ('L' :: t) 0 st = wildcard_copy ('L' :: t) 0 st := by
  have g1 : charAt ('L' :: t) (0 + 1) ≠ '%' := by
    intro h
    obtain ⟨u, hu⟩ := charAt_zero_eq t '%' (by decide) (by simpa [charAt] using h)
    exact h1 ⟨u, by simp [hu]⟩
  have g2 : ¬ (charAt ('L' :: t) (0 + 1) = '*' ∧ ('L' :: t).length ≥ 0 + 2
      ∧ charAt ('L' :: t) (0 + 2) = '*' ∧ charAt ('L' :: t) (0 + 3) = '*') := by
    rintro ⟨e1, -, e2, e3⟩
    rcases t with _ | ⟨x, _ | ⟨y, _ | ⟨z, u⟩⟩⟩ <;> simp [charAt] at e1 e2 e3
    exact h2 ⟨u, by simp [e1, e2, e3]⟩
  have g3 : ¬ (charAt ('L' :: t) (0 + 1) = '/' ∧ ('L' :: t).length ≥ 0 + 2
      ∧ charAt ('L' :: t) (0 + 2) = '/' ∧ charAt ('L' :: t) (0 + 3) = '/') := by
    rintro ⟨e1, -, e2, e3⟩
    rcases t with _ | ⟨x, _ | ⟨y, _ | ⟨z, u⟩⟩⟩ <;> simp [charAt] at e1 e2 e3
    exact h3 ⟨u, by simp [e1, e2, e3]⟩
  unfold wildcard_step
  rw [if_pos (by simp [charAt]), if_neg g1, if_neg g2, if_neg g3]

/-- A descriptor in which no `L` starts `L%`, `L***` or `L///` is copied
unchanged by the scan. -/
theorem scan_suffix_no_trigger (d : List Char) :
    ∀ (out : List Char), ¬ ("L%".toList <:+: d) → ¬ ("L***".toList <:+: d) →
      ¬ ("L///".toList <:+: d) →
      scan_suffix d { supress_semicolon := false, keep_dots := false, wildcard_descriptor := out }
        = { supress_semicolon := false, keep_dots := false, wildcard_descriptor := out ++ d } := by
  induction d with
  | nil => intro out _ _ _; simp [scan_suffix]
  | cons c t ih =>
    intro out h1 h2 h3
    have t1 : ¬ ("L%".toList <:+: t) := fun h => h1 (h.trans (List.suffix_cons c t).isInfix)
    have t2 : ¬ ("L***".toList <:+: t) := fun h => h2 (h.trans (List.suffix_cons c t).isInfix)
    have t3 : ¬ ("L///".toList <:+: t) := fun h => h3 (h.trans (List.suffix_cons c t).isInfix)
    have hstep : wildcard_step (c :: t) 0
        { supress_semicolon := false, keep_dots := false, wildcard_descriptor := out }
        = { supress_semicolon := false, keep_dots := false, wildcard_descriptor := out ++ [c] } := by
      by_cases hc : c = 'L'
      · subst hc
        rw [wildcard_step_L_plain t _ (fun h => h1 h.isInfix) (fun h => h2 h.isInfix)
          (fun h => h3 h.isInfix)]
        simp [wildcard_copy, charAt]
      · simp [wildcard_step, wildcard_copy, charAt, hc]
    rw [scan_suffix, hstep, ih (out ++ [c]) t1 t2 t3]
    simp

theorem wildcard_scan_no_trigger (d : List Char) (h1 : ¬ ("L%".toList <:+: d))
    (h2 : ¬ ("L***".toList <:+: d)) (h3 : ¬ ("L///".toList <:+: d)) :
    wildcard_scan d = d := by
  rw [wildcard_scan_eq, scan_suffix_no_trigger d [] h1 h2 h3]
  simp

theorem convert_wildcard_type_of_ne_nil (convert_type : List Char → List Char)
    (typ : List Char) (h : typ ≠ []) :
    (convert_wildcard_type convert_type typ).result = .ok (wildcard_scan (convert_type typ)) := by
  cases typ with
  | nil => exact absurd rfl h
  | cons c t => rfl

theorem convert_wildcard_type_nil (convert_type : List Char → List Char) :
    (convert_wildcard_type convert_type []).result = .error Failure.InvalidArgument
      ∧ (convert_wildcard_type convert_type []).convert_type_calls = [] :=
  ⟨rfl, rfl⟩

/-! ## Lemmas on the token view of form_type_regex -/

theorem ite_pair_eq (c c' : Prop) [Decidable c] [Decidable c'] (hc : c ↔ c')
    (a b a' b' : Nat × List Char) (i : Nat) (r : List Char)
    (ha : a = (i + a'.1, r ++ a'.2)) (hb : b = (i + b'.1, r ++ b'.2)) :
    (if c then a else b)
      = (i + (if c' then a' else b').1, r ++ (if c' then a' else b').2) := by
  by_cases h : c
  · rw [if_pos h, if_pos (hc.mp h)]; exact ha
  · rw [if_neg h, if_neg (fun h2 => h (hc.mpr h2))]; exact hb

theorem type_step_eq_token (regex r : List Char) (i : Nat) :
    type_step regex i r = (i + (token_at regex i).1, r ++ (token_at regex i).2) := by
  unfold type_step token_at type_token
  dsimp only
  repeat' apply ite_pair_eq
  all_goals first
    | rfl
    | simp

theorem type_token_primitive (c1 c2 : Char) (g1 g2 : Bool) :
    type_token '%' c1 c2 g1 g2 = (1, frag_primitive) := by
  simp [type_token]

theorem type_token_escape (ch c1 c2 : Char) (g1 g2 : Bool) (h : ch ∈ escape_set) :
    type_token ch c1 c2 g1 g2 = (1, ['\\', ch]) := by
  simp only [escape_set, List.mem_cons, List.mem_singleton, List.not_mem_nil, or_false] at h
  rcases h with h | h | h | h | h <;> subst h <;> simp [type_token]

theorem type_token_question (c1 c2 : Char) (g1 g2 : Bool) :
    type_token '?' c1 c2 g1 g2 = (1, frag_question) := by
  simp [type_token]

theorem type_token_three_stars :
    type_token '*' '*' '*' true true = (3, frag_any_type) := by
  simp [type_token]

theorem type_token_two_stars (c2 : Char) (g2 : Bool) (h : ¬ (g2 = true ∧ c2 = '*')) :
    type_token '*' '*' c2 true g2 = (2, frag_two_stars) := by
  simp [type_token]
  intro a b
  exact h ⟨a, b⟩

theorem type_token_one_star (c1 c2 : Char) (g1 g2 : Bool) (h : ¬ (g1 = true ∧ c1 = '*')) :
    type_token '*' c1 c2 g1 g2 = (1, frag_one_star) := by
  simp [type_token]
  intro a b
  exact absurd ⟨a, b⟩ h

theorem type_token_three_dots :
    type_token '.' '.' '.' true true = (3, frag_varargs) := by
  simp [type_token]

theorem type_token_literal (ch c1 c2 : Char) (g1 g2 : Bool) (h : ch ∉ translated_set)
    (hd : ¬ (ch = '.' ∧ (g1 = true ∧ c1 = '.') ∧ (g2 = true ∧ c2 = '.'))) :
    type_token ch c1 c2 g1 g2 = (1, [ch]) := by
  simp only [translated_set, List.mem_cons, List.mem_singleton, List.not_mem_nil, or_false,
    not_or] at h
  obtain ⟨e1, e2, e3, e4, e5, e6, e7, e8⟩ := h
  unfold type_token
  rw [if_neg e1, if_neg e2, if_neg e3, if_neg e4, if_neg e5, if_neg e6, if_neg e7, if_neg e8]
  by_cases e9 : ch = '.'
  · rw [if_pos e9]
    by_cases k1 : g1 = true ∧ c1 = '.'
    · rw [if_pos k1, if_neg (fun k2 => hd ⟨e9, k1, k2⟩)]
    · rw [if_neg k1]
  · rw [if_neg e9]

/-- The cases of the loop body. -/
theorem type_token_cases (ch c1 c2 : Char) (g1 g2 : Bool) :
    (ch = '%' ∧ type_token ch c1 c2 g1 g2 = (1, frag_primitive))
    ∨ (ch ∈ escape_set ∧ type_token ch c1 c2 g1 g2 = (1, ['\\', ch]))
    ∨ (ch = '?' ∧ type_token ch c1 c2 g1 g2 = (1, frag_question))
    ∨ (ch = '*' ∧ g1 = true ∧ c1 = '*' ∧ g2 = true ∧ c2 = '*'
        ∧ type_token ch c1 c2 g1 g2 = (3, frag_any_type))
    ∨ (ch = '*' ∧ g1 = true ∧ c1 = '*' ∧ ¬ (g2 = true ∧ c2 = '*')
        ∧ type_token ch c1 c2 g1 g2 = (2, frag_two_stars))
    ∨ (ch = '*' ∧ ¬ (g1 = true ∧ c1 = '*')
        ∧ type_token ch c1 c2 g1 g2 = (1, frag_one_star))
    ∨ (ch = '.' ∧ g1 = true ∧ c1 = '.' ∧ g2 = true ∧ c2 = '.'
        ∧ type_token ch c1 c2 g1 g2 = (3, frag_varargs))
    ∨ (ch ∉ translated_set ∧ ¬ (ch = '.' ∧ (g1 = true ∧ c1 = '.') ∧ (g2 = true ∧ c2 = '.'))
        ∧ type_token ch c1 c2 g1 g2 = (1, [ch])) := by
  by_cases e1 : ch = '%'
  · subst e1; exact Or.inl ⟨rfl, type_token_primitive _ _ _ _⟩
  by_cases e2 : ch ∈ escape_set
  · exact Or.inr (Or.inl ⟨e2, type_token_escape _ _ _ _ _ e2⟩)
  by_cases e3 : ch = '?'
  · subst e3; exact Or.inr (Or.inr (Or.inl ⟨rfl, type_token_question _ _ _ _⟩))
  by_cases e4 : ch = '*'
  · subst e4
    by_cases k1 : g1 = true ∧ c1 = '*'
    · obtain ⟨k1a, k1b⟩ := k1
      subst k1a; subst k1b
      by_cases k2 : g2 = true ∧ c2 = '*'
      · obtain ⟨k2a, k2b⟩ := k2
        subst k2a; subst k2b
        exact Or.inr (Or.inr (Or.inr (Or.inl ⟨rfl, rfl, rfl, rfl, rfl, type_token_three_stars⟩)))
      · exact Or.inr (Or.inr (Or.inr (Or.inr (Or.inl
          ⟨rfl, rfl, rfl, k2, type_token_two_stars _ _ k2⟩))))
    · exact Or.inr (Or.inr (Or.inr (Or.inr (Or.inr (Or.inl
        ⟨rfl, k1, type_token_one_star _ _ _ _ k1⟩)))))
  have hns : ch ∉ translated_set := by
    simp only [escape_set, List.mem_cons, List.mem_singleton, List.not_mem_nil, or_false,
      not_or] at e2
    simp [translated_set, e1, e2, e3, e4]
  by_cases e5 : ch = '.' ∧ (g1 = true ∧ c1 = '.') ∧ (g2 = true ∧ c2 = '.')
  · obtain ⟨a, ⟨b, c⟩, d, e⟩ := e5
    subst a; subst b; subst c; subst d; subst e
    exact Or.inr (Or.inr (Or.inr (Or.inr (Or.inr (Or.inr (Or.inl
      ⟨rfl, rfl, rfl, rfl, rfl, type_token_three_dots⟩))))))
  · exact Or.inr (Or.inr (Or.inr (Or.inr (Or.inr (Or.inr (Or.inr
      ⟨hns, e5, type_token_literal _ _ _ _ _ hns e5⟩))))))

/-- The width of a token: one character, or two under the first guard, or
three under both guards. -/
theorem type_token_width (ch c1 c2 : Char) (g1 g2 : Bool) :
    (type_token ch c1 c2 g1 g2).1 = 1
    ∨ ((type_token ch c1 c2 g1 g2).1 = 2 ∧ g1 = true)
    ∨ ((type_token ch c1 c2 g1 g2).1 = 3 ∧ g1 = true ∧ g2 = true) := by
  rcases type_token_cases ch c1 c2 g1 g2 with
    ⟨-, h⟩ | ⟨-, h⟩ | ⟨-, h⟩ | ⟨-, g1, -, g2, -, h⟩ | ⟨-, g1, -, -, h⟩ | ⟨-, -, h⟩
      | ⟨-, g1, -, g2, -, h⟩ | ⟨-, -, h⟩
  · exact Or.inl (by rw [h])
  · exact Or.inl (by rw [h])
  · exact Or.inl (by rw [h])
  · exact Or.inr (Or.inr ⟨by rw [h], g1, g2⟩)
  · exact Or.inr (Or.inl ⟨by rw [h], g1⟩)
  · exact Or.inl (by rw [h])
  · exact Or.inr (Or.inr ⟨by rw [h], g1, g2⟩)
  · exact Or.inl (by rw [h])

theorem token_at_pos (regex : List Char) (i : Nat) : 1 ≤ (token_at regex i).1 := by
  unfold token_at
  rcases type_token_width (charAt regex i) (charAt regex (i + 1)) (charAt regex (i + 2))
    (decide (i ≠ regex.length - 1)) (decide (i ≠ regex.length - 2)) with h | ⟨h, -⟩ | ⟨h, -⟩
  all_goals omega

/-- A token never reaches past the end of the string: the guards bound it. -/
theorem token_at_le (regex : List Char) (i : Nat) (hi : i < regex.length) :
    i + (token_at regex i).1 ≤ regex.length := by
  unfold token_at
  rcases type_token_width (charAt regex i) (charAt regex (i + 1)) (charAt regex (i + 2))
    (decide (i ≠ regex.length - 1)) (decide (i ≠ regex.length - 2)) with
    h | ⟨h, g1⟩ | ⟨h, g1, g2⟩
  · omega
  · simp only [decide_eq_true_eq] at g1; omega
  · simp only [decide_eq_true_eq] at g1 g2; omega

theorem type_token_second_guard (ch c1 c2 : Char) (g2 g2' : Bool) :
    type_token ch c1 c2 false g2 = type_token ch c1 c2 false g2' := by
  simp [type_token]

/-- The token at an index depends only on the string from that index on. -/
theorem token_at_append (pre suf : List Char) (k : Nat) (hk : k < suf.length) :
    token_at (pre ++ suf) (pre.length + k) = token_at suf k := by
  unfold token_at
  have e1 : pre.length + k + 1 = pre.length + (k + 1) := by omega
  have e2 : pre.length + k + 2 = pre.length + (k + 2) := by omega
  rw [e1, e2, charAt_append_right, charAt_append_right, charAt_append_right]
  have hg1 : decide (pre.length + k ≠ (pre ++ suf).length - 1) = decide (k ≠ suf.length - 1) := by
    rw [List.length_append]
    apply decide_eq_decide.mpr
    omega
  rw [hg1]
  by_cases hlast : k = suf.length - 1
  · have hf : decide (k ≠ suf.length - 1) = false := by simp [hlast]
    rw [hf]
    exact type_token_second_guard _ _ _ _ _
  · have hg2 : decide (pre.length + k ≠ (pre ++ suf).length - 2) = decide (k ≠ suf.length - 2) := by
      rw [List.length_append]
      apply decide_eq_decide.mpr
      omega
    rw [hg2]

theorem type_loop_append (pre suf : List Char) (fuel : Nat) :
    ∀ (k : Nat) (r : List Char),
      type_loop (pre ++ suf) fuel (pre.length + k) r = type_loop suf fuel k r := by
  induction fuel with
  | zero => intro k r; rfl
  | succ f ih =>
    intro k r
    rw [type_loop, type_loop]
    by_cases hk : k < suf.length
    · have hk2 : pre.length + k < (pre ++ suf).length := by
        rw [List.length_append]; omega
      rw [if_pos hk, if_pos hk2, type_step_eq_token, type_step_eq_token,
        token_at_append pre suf k hk]
      have e : pre.length + k + (token_at suf k).1 = pre.length + (k + (token_at suf k).1) := by
        omega
      simp only [e]
      exact ih _ _
    · have hk2 : ¬ pre.length + k < (pre ++ suf).length := by
        rw [List.length_append]; omega
      rw [if_neg hk, if_neg hk2]

theorem type_loop_output (regex : List Char) (fuel : Nat) :
    ∀ (i : Nat) (r : List Char),
      type_loop regex fuel i r = r ++ type_loop regex fuel i [] := by
  induction fuel with
  | zero => intro i r; simp [type_loop]
  | succ f ih =>
    intro i r
    rw [type_loop, type_loop]
    by_cases hi : i < regex.length
    · rw [if_pos hi, if_pos hi, type_step_eq_token, type_step_eq_token]
      simp only [List.nil_append]
      rw [ih _ (r ++ (token_at regex i).2), ih _ (token_at regex i).2, List.append_assoc]
    · rw [if_neg hi, if_neg hi, List.append_nil]

theorem type_scan_nil : type_scan [] = [] := rfl

/-- One iteration of the scan: the token at the head, then the scan of what
the token leaves. -/
theorem type_scan_unroll (suf : List Char) (h : suf ≠ []) :
    type_scan suf
      = (token_at suf 0).2 ++ type_scan (suf.drop (token_at suf 0).1) := by
  have hlen : 0 < suf.length := List.length_pos.mpr h
  have hpos := token_at_pos suf 0
  have hle := token_at_le suf 0 hlen
  obtain ⟨n, hn⟩ : ∃ n, suf.length = n + 1 := ⟨suf.length - 1, by omega⟩
  unfold type_scan
  rw [hn, type_loop, if_pos (by omega), type_step_eq_token]
  simp only [Nat.zero_add, List.nil_append]
  rw [type_loop_output]
  congr 1
  generalize (token_at suf 0).1 = w at hpos hle
  have hsplit : suf = suf.take w ++ suf.drop w := (List.take_append_drop w suf).symm
  have htake : (suf.take w).length = w := by
    rw [List.length_take]; omega
  have h1 : type_loop suf n w [] = type_loop (suf.drop w) n 0 [] := by
    have := type_loop_append (suf.take w) (suf.drop w) n 0 []
    rw [← hsplit, htake, Nat.add_zero] at this
    exact this
  rw [h1]
  have hdl : (suf.drop w).length = suf.length - w := List.length_drop w suf
  have hfuel := type_loop_fuel (suf.drop w) (suf.drop w).length (n - (suf.drop w).length) 0 []
    (by omega)
  rw [show (suf.drop w).length + (n - (suf.drop w).length) = n by omega] at hfuel
  exact hfuel

theorem form_type_regex_eq_scan (s : List Char) (hs : s ≠ []) (hl : s ≠ "L*;".toList) :
    form_type_regex s = type_scan s :=
  form_type_regex_eq_loop s hs hl

theorem type_token_other (ch c1 c2 c1' c2' : Char) (g1 g2 g1' g2' : Bool)
    (h1 : ch ≠ '*') (h2 : ch ≠ '.') :
    type_token ch c1 c2 g1 g2 = type_token ch c1' c2' g1' g2' := by
  unfold type_token
  simp only [if_neg h1, if_neg h2]

/-- Where the next character does not continue a run, the lookahead and the
guards do not matter. -/
theorem type_token_first_guard (ch c1 c2 c1' c2' : Char) (g1 g2 g2' : Bool)
    (h : ¬ (g1 = true ∧ c1 = ch ∧ (ch = '*' ∨ ch = '.'))) :
    type_token ch c1 c2 g1 g2 = type_token ch c1' c2' false g2' := by
  by_cases h1 : ch = '*'
  · subst h1
    rw [type_token_one_star _ _ _ _ (fun k => h ⟨k.1, k.2, Or.inl rfl⟩),
      type_token_one_star _ _ _ _ (fun k => by simp at k)]
  · by_cases h2 : ch = '.'
    · subst h2
      rw [type_token_literal _ _ _ _ _ (by decide) (fun k => h ⟨k.2.1.1, k.2.1.2, Or.inr rfl⟩),
        type_token_literal _ _ _ _ _ (by decide) (fun k => by simp at k)]
    · exact type_token_other _ _ _ _ _ _ _ _ _ h1 h2

/-- Where the character after next does not continue a run, the second
lookahead and the second guard do not matter. -/
theorem type_token_third (ch c1 c2 c2' : Char) (g1 g2 : Bool)
    (h : ¬ (g2 = true ∧ c2 = ch ∧ c1 = ch ∧ (ch = '*' ∨ ch = '.'))) :
    type_token ch c1 c2 g1 g2 = type_token ch c1 c2' g1 false := by
  by_cases h1 : ch = '*'
  · subst h1
    by_cases k1 : g1 = true ∧ c1 = '*'
    · obtain ⟨a, b⟩ := k1
      subst a; subst b
      rw [type_token_two_stars _ _ (fun k => h ⟨k.1, k.2, rfl, Or.inl rfl⟩),
        type_token_two_stars _ _ (fun k => by simp at k)]
    · rw [type_token_one_star _ _ _ _ k1, type_token_one_star _ _ _ _ k1]
  · by_cases h2 : ch = '.'
    · subst h2
      rw [type_token_literal _ _ _ _ _ (by decide)
          (fun k => h ⟨k.2.2.1, k.2.2.2, k.2.1.2, Or.inr rfl⟩),
        type_token_literal _ _ _ _ _ (by decide) (fun k => by simp at k)]
    · exact type_token_other _ _ _ _ _ _ _ _ _ h1 h2

theorem charAt_zero_head (b : List Char) (x : Char) (hx : x ≠ '\x00')
    (h : charAt b 0 = x) : b.head? = some x := by
  obtain ⟨u, hu⟩ := charAt_zero_eq b x hx h
  rw [hu]; rfl

theorem boundary_head (a b : List Char) (x : Char) (hb : boundary_ok a b)
    (ha : a.getLast? = some x) (hx : x = '*' ∨ x = '.') : charAt b 0 ≠ x := by
  intro h
  have hx0 : x ≠ '\x00' := by rcases hx with e | e <;> subst e <;> decide
  have hh := charAt_zero_head b x hx0 h
  rcases hx with e | e <;> subst e
  · exact hb.1 ⟨ha, hh⟩
  · exact hb.2 ⟨ha, hh⟩

/-- The first token of `a ++ b` is the first token of `a` when the boundary
does not split a run. -/
theorem token_at_prefix (a b : List Char) (ha : a ≠ []) (hb : boundary_ok a b) :
    token_at (a ++ b) 0 = token_at a 0 := by
  unfold token_at
  rcases a with _ | ⟨c, _ | ⟨d, _ | ⟨e, t⟩⟩⟩
  · exact absurd rfl ha
  · -- one character before the boundary
    have hne : ¬ (decide (0 ≠ ([c] ++ b).length - 1) = true ∧ charAt ([c] ++ b) (0 + 1) = c
        ∧ (c = '*' ∨ c = '.')) := by
      rintro ⟨-, h1, h2⟩
      exact boundary_head [c] b c hb rfl h2 (by simpa [charAt] using h1)
    show type_token c _ _ _ _ = type_token c _ _ _ _
    rw [type_token_first_guard _ _ _ (charAt [c] (0 + 1)) (charAt [c] (0 + 2)) _ _
      (decide (0 ≠ [c].length - 2)) hne]
    rfl
  · -- two characters before the boundary
    have hne : ¬ (decide (0 ≠ ([c, d] ++ b).length - 2) = true ∧ charAt ([c, d] ++ b) (0 + 2) = c
        ∧ charAt ([c, d] ++ b) (0 + 1) = c ∧ (c = '*' ∨ c = '.')) := by
      rintro ⟨-, h2, h1, hc⟩
      have hdc : d = c := by simpa [charAt] using h1
      subst hdc
      exact boundary_head [d, d] b d hb rfl hc (by simpa [charAt] using h2)
    show type_token c _ _ _ _ = type_token c _ _ _ _
    rw [type_token_third _ _ _ (charAt [c, d] (0 + 2)) _ _ hne]
    have hg : decide (0 ≠ ([c, d] ++ b).length - 1) = decide (0 ≠ [c, d].length - 1) := by
      simp
    rw [hg]
    rfl
  · have hg1 : decide (0 ≠ (c :: d :: e :: t ++ b).length - 1)
        = decide (0 ≠ (c :: d :: e :: t).length - 1) := by simp
    have hg2 : decide (0 ≠ (c :: d :: e :: t ++ b).length - 2)
        = decide (0 ≠ (c :: d :: e :: t).length - 2) := by simp
    rw [hg1, hg2]
    rfl

theorem boundary_ok_drop (a b : List Char) (w : Nat) (hb : boundary_ok a b) :
    boundary_ok (a.drop w) b := by
  unfold boundary_ok at *
  rw [List.getLast?_drop]
  by_cases h : a.length ≤ w
  · simp [h]
  · simpa [h] using hb

/-- The scan is compositional at every boundary that does not split a run. -/
theorem type_scan_append (n : Nat) :
    ∀ (a b : List Char), a.length ≤ n → boundary_ok a b →
      type_scan (a ++ b) = type_scan a ++ type_scan b := by
  induction n with
  | zero =>
    intro a b hlen _
    have ha : a = [] := List.length_eq_zero.mp (Nat.le_zero.mp hlen)
    subst ha
    simp [type_scan_nil]
  | succ n ih =>
    intro a b hlen hb
    by_cases ha : a = []
    · subst ha
      simp [type_scan_nil]
    · have hab : a ++ b ≠ [] := by simp [ha]
      have hpos := token_at_pos a 0
      have hle := token_at_le a 0 (List.length_pos.mpr ha)
      rw [type_scan_unroll (a ++ b) hab, type_scan_unroll a ha, token_at_prefix a b ha hb,
        List.drop_append_of_le_length (by omega),
        ih (a.drop (token_at a 0).1) b (by rw [List.length_drop]; omega)
          (boundary_ok_drop a b _ hb),
        List.append_assoc]

theorem token_at_three_stars (t : List Char) :
    token_at ('*' :: '*' :: '*' :: t) 0 = (3, frag_any_type) := by
  unfold token_at
  have hg1 : decide (0 ≠ ('*' :: '*' :: '*' :: t).length - 1) = true := by simp
  have hg2 : decide (0 ≠ ('*' :: '*' :: '*' :: t).length - 2) = true := by simp
  rw [hg1, hg2]
  exact type_token_three_stars

theorem token_at_three_dots (t : List Char) :
    token_at ('.' :: '.' :: '.' :: t) 0 = (3, frag_varargs) := by
  unfold token_at
  have hg1 : decide (0 ≠ ('.' :: '.' :: '.' :: t).length - 1) = true := by simp
  have hg2 : decide (0 ≠ ('.' :: '.' :: '.' :: t).length - 2) = true := by simp
  rw [hg1, hg2]
  exact type_token_three_dots

theorem star_run_image_add_three (n : Nat) :
    star_run_image (n + 3) = frag_any_type ++ star_run_image n := by
  unfold star_run_image
  rw [Nat.add_div_right n (by decide : 0 < 3), Nat.add_mod_right, List.replicate_succ,
    List.flatten_cons, List.append_assoc]

theorem dot_run_image_add_three (n : Nat) :
    dot_run_image (n + 3) = frag_varargs ++ dot_run_image n := by
  unfold dot_run_image
  rw [Nat.add_div_right n (by decide : 0 < 3), Nat.add_mod_right, List.replicate_succ,
    List.flatten_cons, List.append_assoc]

/-- The scan of a run of stars is greedy: three stars at a time. -/
theorem type_scan_stars (n : Nat) :
    type_scan (List.replicate n '*') = star_run_image n := by
  induction n using Nat.strong_induction_on with
  | _ n ih =>
    rcases n with _ | _ | _ | m
    · decide
    · decide
    · decide
    · have hshape : List.replicate (m + 3) '*' = '*' :: '*' :: '*' :: List.replicate m '*' := by
        simp [List.replicate_succ]
      rw [hshape, type_scan_unroll _ (by simp), token_at_three_stars, star_run_image_add_three,
        ← ih m (by omega)]
      rfl

/-- The scan of a run of dots: three dots at a time, the rest copied. -/
theorem type_scan_dots (n : Nat) :
    type_scan (List.replicate n '.') = dot_run_image n := by
  induction n using Nat.strong_induction_on with
  | _ n ih =>
    rcases n with _ | _ | _ | m
    · decide
    · decide
    · decide
    · have hshape : List.replicate (m + 3) '.' = '.' :: '.' :: '.' :: List.replicate m '.' := by
        simp [List.replicate_succ]
      rw [hshape, type_scan_unroll _ (by simp), token_at_three_dots, dot_run_image_add_three,
        ← ih m (by omega)]
      rfl

theorem type_scan_single (a : List Char) (hs : '*' ∉ a) (hd : ¬ ("...".toList <:+: a)) :
    type_scan a = a.flatMap type_image := by
  have hss : ¬ ("**".toList <:+: a) := fun h => hs (h.subset (by decide))
  have h := type_loop_single a [] [] a.length (Nat.le_refl _) hss hd
  simpa [type_scan] using h

/-- The scan of a string with one run of stars between two star-free
parts. -/
theorem type_scan_star_run (n : Nat) (a b : List Char) (hn : 1 ≤ n)
    (ha : '*' ∉ a) (hb : '*' ∉ b)
    (ha3 : ¬ ("...".toList <:+: a)) (hb3 : ¬ ("...".toList <:+: b)) :
    type_scan (a ++ List.replicate n '*' ++ b)
      = a.flatMap type_image ++ star_run_image n ++ b.flatMap type_image := by
  have hlast : (a ++ List.replicate n '*').getLast? = some '*' := by
    obtain ⟨m, rfl⟩ : ∃ m, n = m + 1 := ⟨n - 1, by omega⟩
    rw [List.replicate_succ', ← List.append_assoc, List.getLast?_append]
    rfl
  have hb1 : boundary_ok (a ++ List.replicate n '*') b := by
    refine ⟨fun h => hb ?_, fun h => ?_⟩
    · obtain ⟨u, hu⟩ := List.head?_eq_some_iff.mp h.2
      rw [hu]; simp
    · rw [hlast] at h
      exact absurd h.1 (by decide)
  have hb2 : boundary_ok a (List.replicate n '*') := by
    refine ⟨fun h => ha ?_, fun h => ?_⟩
    · obtain ⟨u, hu⟩ := List.getLast?_eq_some_iff.mp h.1
      rw [hu]; simp
    · obtain ⟨m, rfl⟩ : ∃ m, n = m + 1 := ⟨n - 1, by omega⟩
      rw [List.replicate_succ] at h
      exact absurd h.2 (by simp)
  rw [type_scan_append _ _ _ (Nat.le_refl _) hb1, type_scan_append _ _ _ (Nat.le_refl _) hb2,
    type_scan_stars, type_scan_single a ha ha3, type_scan_single b hb hb3]

theorem getLast?_append_of_mem (x a : List Char) (l : List (Option Char))
    (hl : none ∉ l) (h : a.getLast? ∈ l) : (x ++ a).getLast? ∈ l := by
  rw [List.getLast?_append]
  cases hq : a.getLast? with
  | none => rw [hq] at h; exact absurd h hl
  | some q => rw [hq] at h; exact h

theorem quantifier_safe_append (x y : List Char) (hx : quantifier_safe x)
    (hy : quantifier_safe y) : quantifier_safe (x ++ y) := by
  intro pre post c h
  rcases List.append_eq_append_iff.mp h with ⟨a, h1, h2⟩ | ⟨a, h1, h2⟩
  · -- the occurrence lies in `y`
    obtain ⟨g1, g2⟩ := hy a post c h2
    subst h1
    refine ⟨fun hc => getLast?_append_of_mem x a _ (by decide) (g1 hc), fun hc => ?_⟩
    obtain ⟨k1, k2⟩ := g2 hc
    refine ⟨?_, k2⟩
    rw [List.getLast?_append, k1]
    rfl
  · cases a with
    | nil =>
      -- the occurrence heads `y`
      simp only [List.nil_append] at h2
      obtain ⟨g1, g2⟩ := hy [] post c h2.symm
      exact ⟨fun hc => absurd (g1 hc) (by decide), fun hc => absurd (g2 hc).1 (by decide)⟩
    | cons d a2 =>
      -- the occurrence lies in `x`
      simp only [List.cons_append, List.cons.injEq] at h2
      obtain ⟨hd, hpost⟩ := h2
      subst hd
      obtain ⟨g1, g2⟩ := hx pre a2 c h1
      refine ⟨g1, fun hc => ⟨(g2 hc).1, ?_⟩⟩
      rw [hpost, List.head?_append, (g2 hc).2]
      rfl

/-- The decidable form of `quantifier_safe`: the test at every index. -/
theorem quantifier_safe_of_check (out : List Char)
    (h : ∀ i, i < out.length →
      (out.getD i 'x' = '*' →
        (out.take i).getLast? ∈ [some '.', some ']', some '[', some ')'])
      ∧ (out.getD i 'x' = '?' →
        (out.take i).getLast? = some '(' ∧ (out.drop (i + 1)).head? = some ':')) :
    quantifier_safe out := by
  intro pre post c he
  subst he
  have hi := h pre.length (by simp)
  have e1 : (pre ++ c :: post).getD pre.length 'x' = c := by
    rw [List.getD_append_right _ _ _ _ (Nat.le_refl _)]
    simp
  have e2 : (pre ++ c :: post).take pre.length = pre := List.take_left' rfl
  have e3 : (pre ++ c :: post).drop (pre.length + 1) = post := by
    rw [List.drop_append_eq_append_drop]
    simp
  rw [e1, e2, e3] at hi
  exact hi

theorem quantifier_safe_nil : quantifier_safe [] := by
  intro pre post c h
  simp at h

theorem quantifier_safe_literal (c : Char) (h1 : c ≠ '*') (h2 : c ≠ '?') :
    quantifier_safe [c] :=
  quantifier_safe_of_check [c] (by
    intro i hi
    have hi0 : i = 0 := by simpa using hi
    subst hi0
    exact ⟨fun h => absurd h h1, fun h => absurd h h2⟩)

theorem quantifier_safe_escape (c : Char) (h : c ∈ escape_set) :
    quantifier_safe ['\\', c] := by
  simp only [escape_set, List.mem_cons, List.mem_singleton, List.not_mem_nil, or_false] at h
  rcases h with h | h | h | h | h <;> subst h <;>
    exact quantifier_safe_of_check _ (by decide)

theorem quantifier_safe_primitive : quantifier_safe frag_primitive :=
  quantifier_safe_of_check _ (by decide)

theorem quantifier_safe_question : quantifier_safe frag_question :=
  quantifier_safe_of_check _ (by decide)

theorem quantifier_safe_any_type : quantifier_safe frag_any_type :=
  quantifier_safe_of_check _ (by decide)

theorem quantifier_safe_two_stars : quantifier_safe frag_two_stars :=
  quantifier_safe_of_check _ (by decide)

theorem quantifier_safe_one_star : quantifier_safe frag_one_star :=
  quantifier_safe_of_check _ (by decide)

theorem quantifier_safe_varargs : quantifier_safe frag_varargs :=
  quantifier_safe_of_check _ (by decide)

theorem quantifier_safe_token (ch c1 c2 : Char) (g1 g2 : Bool) :
    quantifier_safe (type_token ch c1 c2 g1 g2).2 := by
  rcases type_token_cases ch c1 c2 g1 g2 with
    ⟨-, h⟩ | ⟨he, h⟩ | ⟨-, h⟩ | ⟨-, -, -, -, -, h⟩ | ⟨-, -, -, -, h⟩ | ⟨-, -, h⟩
      | ⟨-, -, -, -, -, h⟩ | ⟨hn, -, h⟩
  · rw [h]; exact quantifier_safe_primitive
  · rw [h]; exact quantifier_safe_escape ch he
  · rw [h]; exact quantifier_safe_question
  · rw [h]; exact quantifier_safe_any_type
  · rw [h]; exact quantifier_safe_two_stars
  · rw [h]; exact quantifier_safe_one_star
  · rw [h]; exact quantifier_safe_varargs
  · rw [h]
    refine quantifier_safe_literal ch (fun e => hn ?_) (fun e => hn ?_)
    · rw [e]; decide
    · rw [e]; decide

theorem quantifier_safe_scan (n : Nat) :
    ∀ (suf : List Char), suf.length ≤ n → quantifier_safe (type_scan suf) := by
  induction n with
  | zero =>
    intro suf hlen
    have hs : suf = [] := List.length_eq_zero.mp (Nat.le_zero.mp hlen)
    subst hs
    exact quantifier_safe_nil
  | succ n ih =>
    intro suf hlen
    by_cases hs : suf = []
    · subst hs
      exact quantifier_safe_nil
    · have hpos := token_at_pos suf 0
      rw [type_scan_unroll suf hs]
      refine quantifier_safe_append _ _ (quantifier_safe_token _ _ _ _ _) (ih _ ?_)
      rw [List.length_drop]
      omega

theorem quantifier_safe_form_type_regex (s : List Char) :
    quantifier_safe (form_type_regex s) := by
  by_cases hs : s = []
  · subst hs
    exact quantifier_safe_of_check _ (by decide)
  · by_cases hl : s = "L*;".toList
    · subst hl
      exact quantifier_safe_of_check _ (by decide)
    · rw [form_type_regex_eq_scan s hs hl]
      exact quantifier_safe_scan s.length s (Nat.le_refl _)

theorem type_step_reads_lt (regex : List Char) (i idx : Nat) (hi : i < regex.length)
    (h : idx ∈ type_step_reads regex i) : idx < regex.length := by
  unfold type_step_reads at h
  dsimp only at h
  split_ifs at h <;> simp at h <;> omega

theorem type_loop_reads_lt (regex : List Char) (fuel : Nat) :
    ∀ (i idx : Nat), idx ∈ type_loop_reads regex fuel i → idx < regex.length := by
  induction fuel with
  | zero => intro i idx h; simp [type_loop_reads] at h
  | succ f ih =>
    intro i idx h
    rw [type_loop_reads] at h
    by_cases hi : i < regex.length
    · rw [if_pos hi, List.mem_append] at h
      rcases h with h | h
      · exact type_step_reads_lt regex i idx hi h
      · exact ih _ idx h
    · rw [if_neg hi] at h
      simp at h

theorem charAt_lt_of_ne_null (s : List Char) (k : Nat) (x : Char) (hx : x ≠ '\x00')
    (h : charAt s k = x) : k < s.length := by
  by_contra hk
  have : charAt s k = '\x00' := by
    unfold charAt
    exact List.getD_eq_default _ _ (by omega)
  exact hx (h.symm.trans this)

theorem triple_reads_le (desc : List Char) (i idx : Nat) (x : Char) (hx : x ≠ '\x00')
    (hi : i < desc.length) (h : idx ∈ triple_reads desc i x) : idx ≤ desc.length := by
  unfold triple_reads at h
  rw [List.mem_cons] at h
  rcases h with h | h
  · omega
  · by_cases c1 : charAt desc (i + 1) = x ∧ desc.length ≥ i + 2
    · rw [if_pos c1, List.mem_cons] at h
      rcases h with h | h
      · omega
      · by_cases c2 : charAt desc (i + 2) = x
        · rw [if_pos c2, List.mem_singleton] at h
          have := charAt_lt_of_ne_null desc (i + 2) x hx c2
          omega
        · rw [if_neg c2] at h
          simp at h
    · rw [if_neg c1] at h
      simp at h

theorem wildcard_step_reads_le (desc : List Char) (i idx : Nat) (hi : i < desc.length)
    (h : idx ∈ wildcard_step_reads desc i) : idx ≤ desc.length := by
  unfold wildcard_step_reads at h
  by_cases hL : charAt desc i = 'L'
  · rw [if_pos hL, List.mem_cons] at h
    rcases h with h | h
    · omega
    · by_cases hp : charAt desc (i + 1) = '%'
      · rw [if_pos hp] at h
        simp at h
      · rw [if_neg hp, List.mem_append] at h
        rcases h with h | h
        · exact triple_reads_le desc i idx '*' (by decide) hi h
        · by_cases hs : charAt desc (i + 1) = '*' ∧ desc.length ≥ i + 2
              ∧ charAt desc (i + 2) = '*' ∧ charAt desc (i + 3) = '*'
          · rw [if_pos hs] at h
            simp at h
          · rw [if_neg hs] at h
            exact triple_reads_le desc i idx '/' (by decide) hi h
  · rw [if_neg hL] at h
    simp at h

theorem flatMap_congr_mem (s : List Char) (f g : Char → List Char)
    (h : ∀ c ∈ s, f c = g c) : s.flatMap f = s.flatMap g := by
  induction s with
  | nil => rfl
  | cons c t ih =>
    rw [List.flatMap_cons, List.flatMap_cons, h c (by simp),
      ih (fun d hd => h d (by simp [hd]))]

theorem flatMap_singleton_self (s : List Char) : s.flatMap (fun c => [c]) = s := by
  induction s with
  | nil => rfl
  | cons c t ih => rw [List.flatMap_cons, ih]; rfl

theorem not_reserved_of_no_special (s : List Char) (h : has_special_char s = false) :
    ∀ c ∈ s, c ∉ reserved_set := by
  intro c hc hr
  have := (has_special_char_iff s).mpr ⟨c, hc, hr⟩
  rw [h] at this
  exact Bool.noConfusion this

theorem member_image_plain (c : Char) (h : c ∉ reserved_set) : member_image c = [c] := by
  have h1 : c ≠ '*' := fun e => h (by rw [e]; decide)
  have h2 : c ≠ '?' := fun e => h (by rw [e]; decide)
  simp [member_image, h1, h2]

theorem type_image_not_reserved (c : Char) (h : c ∉ reserved_set) :
    type_image c = slash_image c := by
  by_cases hs : c = '/'
  · subst hs; rfl
  · have he : c ∉ escape_set := by
      intro hmem
      simp only [escape_set, List.mem_cons, List.mem_singleton, List.not_mem_nil,
        or_false] at hmem
      rcases hmem with e | e | e | e | e
      · exact h (by rw [e]; decide)
      · exact hs e
      · exact h (by rw [e]; decide)
      · exact h (by rw [e]; decide)
      · exact h (by rw [e]; decide)
    have hw : c ∉ wildcard_set := by
      intro hmem
      simp only [wildcard_set, List.mem_cons, List.mem_singleton, List.not_mem_nil,
        or_false] at hmem
      rcases hmem with e | e | e | e <;> exact h (by rw [e]; decide)
    rw [type_image_plain c he hw]
    simp [slash_image, hs]

theorem wildcard_set_reserved (c : Char) (h : c ∈ wildcard_set) : c ∈ reserved_set := by
  simp only [wildcard_set, List.mem_cons, List.mem_singleton, List.not_mem_nil, or_false] at h
  rcases h with e | e | e | e <;> subst e <;> decide

theorem length_flatMap_slash_image (s : List Char) :
    (s.flatMap slash_image).length = s.length + s.count '/' := by
  induction s with
  | nil => rfl
  | cons c t ih =>
    rw [List.flatMap_cons, List.length_append, ih, List.length_cons, List.count_cons]
    by_cases hs : c = '/'
    · subst hs
      simp [slash_image]
      omega
    · have : (c == '/') = false := by simpa using hs
      simp [slash_image, hs, this]
      omega

theorem flatMap_slash_image_eq_self (s : List Char) :
    s.flatMap slash_image = s ↔ '/' ∉ s := by
  constructor
  · intro h
    have hl := length_flatMap_slash_image s
    rw [h] at hl
    have : s.count '/' = 0 := by omega
    exact List.count_eq_zero.mp this
  · intro h
    rw [flatMap_congr_mem s slash_image (fun c => [c]), flatMap_singleton_self]
    intro c hc
    have : c ≠ '/' := fun e => h (e ▸ hc)
    simp [slash_image, this]

theorem star_run_ne_bare (n : Nat) (a b : List Char) (hn : 2 ≤ n) :
    a ++ List.replicate n '*' ++ b ≠ [] ∧ a ++ List.replicate n '*' ++ b ≠ "L*;".toList := by
  have hcount : n ≤ (a ++ List.replicate n '*' ++ b).count '*' := by
    rw [List.count_append, List.count_append, List.count_replicate_self]
    omega
  constructor
  · intro h
    rw [h] at hcount
    simp at hcount
    omega
  · intro h
    rw [h] at hcount
    have : ("L*;".toList).count '*' = 1 := by decide
    omega

theorem dot_run_ne_bare (n : Nat) (hn : 1 ≤ n) :
    List.replicate n '.' ≠ [] ∧ List.replicate n '.' ≠ "L*;".toList := by
  obtain ⟨m, rfl⟩ : ∃ m, n = m + 1 := ⟨n - 1, by omega⟩
  rw [List.replicate_succ]
  constructor
  · simp
  · intro h
    have : '.' = 'L' := (List.cons.inj h).1
    exact absurd this (by decide)

/-! ## The claims -/

/-- C1: for every non-empty type spec other than `L*;` that holds no two
adjacent `*` and no three consecutive `.`, `form_type_regex` returns the
in-order concatenation of the per-character images of `type_image` (`L*;` as
a proper substring included). -/
theorem form_type_regex_per_character (s : List Char) (hs : s ≠ [])
    (hl : s ≠ "L*;".toList) (hss : ¬ ("**".toList <:+: s))
    (hddd : ¬ ("...".toList <:+: s)) :
    form_type_regex s = s.flatMap type_image :=
  form_type_regex_single s hs hl hss hddd

theorem form_type_regex_per_character_witness :
    form_type_regex "%".toList = "(?:B|S|I|J|Z|F|D|C|V)".toList
    ∧ form_type_regex "Lalpha?beta;".toList = "Lalpha[^\\/\\[]beta;".toList
    ∧ form_type_regex "Lalpha/*/beta;".toList = "Lalpha\\/(?:[^\\/\\[]*)\\/beta;".toList
    ∧ form_type_regex "[L*;".toList = "\\[L(?:[^\\/\\[]*);".toList
    ∧ form_type_regex "a..b.$()".toList = "a..b.\\$\\(\\)".toList :=
  ⟨(form_type_regex_per_character "%".toList (by decide) (by decide) (by decide)
      (by decide)).trans (by decide),
   (form_type_regex_per_character "Lalpha?beta;".toList (by decide) (by decide) (by decide)
      (by decide)).trans (by decide),
   (form_type_regex_per_character "Lalpha/*/beta;".toList (by decide) (by decide) (by decide)
      (by decide)).trans (by decide),
   (form_type_regex_per_character "[L*;".toList (by decide) (by decide) (by decide)
      (by decide)).trans (by decide),
   (form_type_regex_per_character "a..b.$()".toList (by decide) (by decide) (by decide)
      (by decide)).trans (by decide)⟩

/-- C2: for every non-empty member spec `a`, `form_member_regex a` is the
in-order concatenation of the per-character images of `member_image`, and the
compiler distributes over the concatenation of two non-empty specs. -/
theorem form_member_regex_per_character (a b : List Char) (ha : a ≠ []) (hb : b ≠ []) :
    form_member_regex a = a.flatMap member_image
    ∧ form_member_regex (a ++ b) = form_member_regex a ++ form_member_regex b := by
  have hab : a ++ b ≠ [] := by simp [ha]
  rw [form_member_regex_of_ne_nil a ha, form_member_regex_of_ne_nil b hb,
    form_member_regex_of_ne_nil (a ++ b) hab, List.flatMap_append]
  exact ⟨rfl, rfl⟩

theorem form_member_regex_per_character_witness :
    form_member_regex "alpha*beta?gamma".toList = "alpha.*beta.gamma".toList
    ∧ form_member_regex ("alpha*beta?gamma".toList ++ "*?".toList)
        = "alpha.*beta.gamma".toList ++ ".*.".toList :=
  have h := form_member_regex_per_character "alpha*beta?gamma".toList "*?".toList
    (by decide) (by decide)
  ⟨h.1.trans (by decide), h.2.trans (by decide)⟩

/-- C3: `has_special_char s` is true exactly when `s` holds a character of the
reserved set, and false exactly when every character of `s` lies outside it;
it is false for the empty string and for `/;L`. -/
theorem has_special_char_iff_reserved (s : List Char) :
    (has_special_char s = true ↔ ∃ c ∈ s, c ∈ reserved_set)
    ∧ (has_special_char s = false ↔ ∀ c ∈ s, c ∉ reserved_set)
    ∧ has_special_char "".toList = false
    ∧ has_special_char "/;L".toList = false := by
  refine ⟨has_special_char_iff s, ?_, by decide, by decide⟩
  rw [← Bool.not_eq_true, has_special_char_iff]
  simp

/-- C4: the empty specification compiles to `.*` in both compilers. -/
theorem empty_spec_matches_everything :
    form_member_regex "".toList = ".*".toList ∧ form_type_regex "".toList = ".*".toList :=
  ⟨by decide, by decide⟩

/-- C5: the bare class wildcard `L*;` compiles as `L**;` does, to
`L(?:[^\[]*);`, and not to the single-segment pattern. -/
theorem bare_class_wildcard_widened :
    form_type_regex "L*;".toList = form_type_regex "L**;".toList
    ∧ form_type_regex "L*;".toList = "L(?:[^\\[]*);".toList
    ∧ form_type_regex "L*;".toList ≠ "L(?:[^\\/\\[]*);".toList :=
  ⟨by decide, by decide, by decide⟩

/-- C6, as stated, fails: the spec `\/` holds no wildcard character and
compiles to `\\/`, in which the `/` stands after two backslashes. -/
theorem escaped_once_fails_after_backslash :
    (∀ c ∈ "\\/".toList, c ∉ wildcard_set)
    ∧ form_type_regex "\\/".toList = "\\\\/".toList
    ∧ '/' ∈ escape_set
    ∧ ¬ (∀ (pre post : List Char) (c : Char),
          form_type_regex "\\/".toList = pre ++ c :: post → c ∈ escape_set →
          ['\\'] <:+ pre ∧ ¬ (['\\', '\\'] <:+ pre)) := by
  refine ⟨by decide, by decide, by decide, fun h => ?_⟩
  exact (h "\\\\".toList [] '/' (by decide) (by decide)).2 (by decide)

/-- C6, amended: for every type spec without wildcard characters, every
occurrence of `$`, `/`, `(`, `)`, `[` in `form_type_regex s` stands right
after a backslash, which is the only one before it when `s` holds no
backslash; there are as many occurrences in the output as in `s`. -/
theorem escaped_once_without_backslash (s : List Char)
    (hw : ∀ c ∈ s, c ∉ wildcard_set) :
    (∀ (pre post : List Char) (c : Char),
        form_type_regex s = pre ++ c :: post → c ∈ escape_set →
        ['\\'] <:+ pre ∧ ('\\' ∉ s → ¬ (['\\', '\\'] <:+ pre)))
    ∧ (form_type_regex s).countP (fun c => decide (c ∈ escape_set))
        = s.countP (fun c => decide (c ∈ escape_set)) := by
  by_cases hs : s = []
  · subst hs
    refine ⟨fun pre post c h hc => ?_, by decide⟩
    have hmem : c ∈ form_type_regex [] := by rw [h]; simp
    have hc2 : c = '.' ∨ c = '*' := by simpa [form_type_regex] using hmem
    rcases hc2 with e | e <;> subst e <;> exact absurd hc (by decide)
  · rw [form_type_regex_plain s hs hw]
    exact ⟨flatMap_type_image_escaped s hw, flatMap_type_image_countP s hw⟩

theorem escaped_once_without_backslash_witness :
    (∀ c ∈ "La/b$c;".toList, c ∉ wildcard_set)
    ∧ '\\' ∉ "La/b$c;".toList
    ∧ form_type_regex "La/b$c;".toList = "La\\/b\\$c;".toList
    ∧ (∀ (pre post : List Char) (c : Char),
        form_type_regex "La/b$c;".toList = pre ++ c :: post → c ∈ escape_set →
        ['\\'] <:+ pre ∧ ('\\' ∉ "La/b$c;".toList → ¬ (['\\', '\\'] <:+ pre)))
    ∧ (form_type_regex "La/b$c;".toList).countP (fun c => decide (c ∈ escape_set)) = 2 :=
  have h := escaped_once_without_backslash "La/b$c;".toList (by decide)
  ⟨by decide, by decide, by decide, h.1, h.2.trans (by decide)⟩

/-- C7: `convert_wildcard_type` fails exactly on the empty type name, with
`InvalidArgument` and without a call of the converter; on every other type
name it returns the scan of the converter's descriptor, whatever that is. -/
theorem convert_wildcard_type_fails_iff_empty (convert_type : List Char → List Char)
    (typ : List Char) :
    ((∃ e, (convert_wildcard_type convert_type typ).result = .error e) ↔ typ = [])
    ∧ ((convert_wildcard_type convert_type typ).result
          = .ok (wildcard_scan (convert_type typ)) ↔ typ ≠ [])
    ∧ (convert_wildcard_type convert_type "".toList).result = .error Failure.InvalidArgument
    ∧ (convert_wildcard_type convert_type "".toList).convert_type_calls = [] := by
  refine ⟨?_, ?_, rfl, rfl⟩
  · constructor
    · rintro ⟨e, he⟩
      by_contra hne
      rw [convert_wildcard_type_of_ne_nil convert_type typ hne] at he
      cases he
    · intro h
      subst h
      exact ⟨Failure.InvalidArgument, rfl⟩
  · constructor
    · intro h hnil
      subst hnil
      rw [(convert_wildcard_type_nil convert_type).1] at h
      cases h
    · exact convert_wildcard_type_of_ne_nil convert_type typ

/-- C8: when the converter's descriptor is `a ++ "L" ++ w ++ m ++ ";" ++ b`
with `w` one of `%`, `***`, no `L` in `a`, `m`, `b` and no `;` in `m`, the
result is `a ++ w ++ m ++ b`: the `L` and the first following `;` are dropped
and every other character is copied. -/
theorem convert_wildcard_type_strips_brackets (convert_type : List Char → List Char)
    (typ a m b w : List Char) (htyp : typ ≠ [])
    (hw : w = "%".toList ∨ w = "***".toList)
    (ha : 'L' ∉ a) (hmL : 'L' ∉ m) (hmS : ';' ∉ m) (hb : 'L' ∉ b)
    (hd : convert_type typ = a ++ "L".toList ++ w ++ m ++ ";".toList ++ b) :
    (convert_wildcard_type convert_type typ).result = .ok (a ++ w ++ m ++ b) := by
  rw [convert_wildcard_type_of_ne_nil convert_type typ htyp, hd,
    wildcard_scan_bracketed a m b w hw ha hmL hmS hb]

theorem convert_wildcard_type_strips_brackets_witness :
    (convert_wildcard_type (fun _ => "L%;".toList) "%".toList).result = .ok "%".toList
    ∧ (convert_wildcard_type (fun _ => "L***;".toList) "***".toList).result = .ok "***".toList
    ∧ (convert_wildcard_type (fun _ => "(L%;)V".toList) "x".toList).result = .ok "(%)V".toList
    ∧ (convert_wildcard_type (fun _ => "[;L***a/b;/;".toList) "x".toList).result
        = .ok "[;***a/b/;".toList :=
  ⟨convert_wildcard_type_strips_brackets (fun _ => "L%;".toList) "%".toList
      [] [] [] "%".toList (by decide) (Or.inl rfl) (by decide) (by decide) (by decide)
      (by decide) rfl,
   convert_wildcard_type_strips_brackets (fun _ => "L***;".toList) "***".toList
      [] [] [] "***".toList (by decide) (Or.inr rfl) (by decide) (by decide) (by decide)
      (by decide) rfl,
   convert_wildcard_type_strips_brackets (fun _ => "(L%;)V".toList) "x".toList
      "(".toList [] ")V".toList "%".toList (by decide) (Or.inl rfl) (by decide) (by decide)
      (by decide) (by decide) rfl,
   convert_wildcard_type_strips_brackets (fun _ => "[;L***a/b;/;".toList) "x".toList
      "[;".toList "a/b".toList "/;".toList "***".toList (by decide) (Or.inr rfl) (by decide)
      (by decide) (by decide) (by decide) rfl⟩

/-- C9: when the converter's descriptor is `a ++ "L///" ++ m ++ ";" ++ b` with
no `L` in `a`, `m`, `b` and no `;` in `m`, the result is
`a ++ "..." ++ m' ++ b`, where `m'` is `m` with every `/` replaced by `.`;
the `/` of `a` and `b` stay. -/
theorem convert_wildcard_type_restores_dots (convert_type : List Char → List Char)
    (typ a m b : List Char) (htyp : typ ≠ [])
    (ha : 'L' ∉ a) (hmL : 'L' ∉ m) (hmS : ';' ∉ m) (hb : 'L' ∉ b)
    (hd : convert_type typ = a ++ "L///".toList ++ m ++ ";".toList ++ b) :
    (convert_wildcard_type convert_type typ).result
      = .ok (a ++ "...".toList ++ m.map (fun c => if c = '/' then '.' else c) ++ b) := by
  rw [convert_wildcard_type_of_ne_nil convert_type typ htyp, hd,
    wildcard_scan_triple_slash a m b ha hmL hmS hb]

theorem convert_wildcard_type_restores_dots_witness :
    (convert_wildcard_type (fun _ => "L///;".toList) "...".toList).result = .ok "...".toList
    ∧ (convert_wildcard_type (fun _ => "a/;L///x/y;b/;".toList) "x".toList).result
        = .ok "a/;...x.yb/;".toList :=
  ⟨convert_wildcard_type_restores_dots (fun _ => "L///;".toList) "...".toList
      [] [] [] (by decide) (by decide) (by decide) (by decide) (by decide) rfl,
   convert_wildcard_type_restores_dots (fun _ => "a/;L///x/y;b/;".toList) "x".toList
      "a/;".toList "x/y".toList "b/;".toList (by decide) (by decide) (by decide) (by decide)
      (by decide) rfl⟩

/-- C10: for every non-empty type name whose converted descriptor holds no
`L` immediately followed by `%`, by `***` or by `///`, the result is that
descriptor, unchanged. -/
theorem convert_wildcard_type_frame (convert_type : List Char → List Char)
    (typ : List Char) (htyp : typ ≠ [])
    (h1 : ¬ ("L%".toList <:+: convert_type typ))
    (h2 : ¬ ("L***".toList <:+: convert_type typ))
    (h3 : ¬ ("L///".toList <:+: convert_type typ)) :
    (convert_wildcard_type convert_type typ).result = .ok (convert_type typ) := by
  rw [convert_wildcard_type_of_ne_nil convert_type typ htyp,
    wildcard_scan_no_trigger (convert_type typ) h1 h2 h3]

theorem convert_wildcard_type_frame_witness :
    (convert_wildcard_type (fun _ => "(La/b;L*;L**;[L//;L)L".toList) "x".toList).result
      = .ok "(La/b;L*;L**;[L//;L)L".toList :=
  convert_wildcard_type_frame (fun _ => "(La/b;L*;L**;[L//;L)L".toList) "x".toList
    (by decide) (by decide) (by decide) (by decide)

/-- C11: for every `n ≥ 2` and all `a`, `b` without `*` and without three
consecutive `.`, `form_type_regex (a ++ *^n ++ b)` is the per-character image
of `a`, then `n / 3` copies of the `***` fragment followed by the `**`
fragment if `n % 3 = 2` or the `*` fragment if `n % 3 = 1`, then the
per-character image of `b`. -/
theorem form_type_regex_star_run (n : Nat) (a b : List Char) (hn : 2 ≤ n)
    (ha : '*' ∉ a) (hb : '*' ∉ b)
    (ha3 : ¬ ("...".toList <:+: a)) (hb3 : ¬ ("...".toList <:+: b)) :
    form_type_regex (a ++ List.replicate n '*' ++ b)
      = a.flatMap type_image ++ star_run_image n ++ b.flatMap type_image := by
  rw [form_type_regex_eq_scan _ (star_run_ne_bare n a b hn).1 (star_run_ne_bare n a b hn).2]
  exact type_scan_star_run n a b (by omega) ha hb ha3 hb3

theorem form_type_regex_star_run_witness :
    form_type_regex "Lalpha/**/beta;".toList = "Lalpha\\/(?:[^\\[]*)\\/beta;".toList
    ∧ form_type_regex "a..**".toList = "a..(?:[^\\[]*)".toList
    ∧ form_type_regex ("(".toList ++ List.replicate 4 '*' ++ ")".toList)
      = "\\(\\[*(?:(?:B|S|I|J|Z|F|D|C|V)|L.*;)(?:[^\\/\\[]*)\\)".toList
    ∧ form_type_regex ([] ++ List.replicate 6 '*' ++ [])
      = frag_any_type ++ frag_any_type :=
  ⟨(form_type_regex_star_run 2 "Lalpha/".toList "/beta;".toList (by decide) (by decide)
      (by decide) (by decide) (by decide)).trans (by decide),
   (form_type_regex_star_run 2 "a..".toList [] (by decide) (by decide)
      (by decide) (by decide) (by decide)).trans (by decide),
   (form_type_regex_star_run 4 "(".toList ")".toList (by decide) (by decide)
      (by decide) (by decide) (by decide)).trans (by decide),
   (form_type_regex_star_run 6 [] [] (by decide) (by decide)
      (by decide) (by decide) (by decide)).trans (by decide)⟩

/-- C12: for every `n ≥ 1` the spec of `n` dots compiles to `n / 3` copies of
the varargs fragment followed by `n % 3` literal dots. -/
theorem form_type_regex_dot_run (n : Nat) (hn : 1 ≤ n) :
    form_type_regex (List.replicate n '.') = dot_run_image n := by
  rw [form_type_regex_eq_scan _ (dot_run_ne_bare n hn).1 (dot_run_ne_bare n hn).2]
  exact type_scan_dots n

theorem form_type_regex_dot_run_witness :
    form_type_regex (List.replicate 1 '.') = ".".toList
    ∧ form_type_regex (List.replicate 2 '.') = "..".toList
    ∧ form_type_regex (List.replicate 3 '.') = "(?:\\[*(?:(?:B|S|I|J|Z|F|D|C)|L.*;))*".toList
    ∧ form_type_regex (List.replicate 4 '.')
        = "(?:\\[*(?:(?:B|S|I|J|Z|F|D|C)|L.*;))*.".toList
    ∧ List.replicate 4 '.' = "....".toList :=
  ⟨(form_type_regex_dot_run 1 (by decide)).trans (by decide),
   (form_type_regex_dot_run 2 (by decide)).trans (by decide),
   (form_type_regex_dot_run 3 (by decide)).trans (by decide),
   (form_type_regex_dot_run 4 (by decide)).trans (by decide),
   by decide⟩

/-- C13: every index `form_type_regex` reads lies inside the string it
scans: at every scan position `i` the reads of the loop body, lookaheads
`regex[i + 1]` and `regex[i + 2]` included, are below `regex.size()`, and so
are all the reads of a whole call. -/
theorem form_type_regex_reads_in_bounds (s : List Char) (i idx : Nat) :
    (i < s.length → idx ∈ type_step_reads s i → idx < s.length)
    ∧ (idx ∈ form_type_regex_reads s →
        idx < (if s = "L*;".toList then L_STAR_REGEX else s).length) := by
  refine ⟨fun hi h => type_step_reads_lt s i idx hi h, fun h => ?_⟩
  unfold form_type_regex_reads at h
  by_cases hs : s.isEmpty = true
  · rw [if_pos hs] at h
    simp at h
  · rw [if_neg hs] at h
    exact type_loop_reads_lt _ _ 0 idx h

theorem form_type_regex_reads_in_bounds_witness :
    (form_type_regex_reads "*".toList = [0]
      ∧ form_type_regex_reads "**".toList = [0, 1]
      ∧ form_type_regex_reads ".".toList = [0]
      ∧ form_type_regex_reads "..".toList = [0, 1, 1]
      ∧ form_type_regex_reads "a***".toList = [0, 1, 2, 3])
    ∧ (1 < "a***".toList.length → 3 ∈ type_step_reads "a***".toList 1 →
        3 < "a***".toList.length)
    ∧ 3 < (if "a***".toList = "L*;".toList then L_STAR_REGEX else "a***".toList).length :=
  ⟨by decide, (form_type_regex_reads_in_bounds "a***".toList 1 3).1,
    (form_type_regex_reads_in_bounds "a***".toList 1 3).2 (by decide)⟩

/-- C14: at every position `i` of a descriptor `d`, each lookahead read
`d[i + 1]`, `d[i + 2]`, `d[i + 3]` that the scan of `convert_wildcard_type`
evaluates (there are none unless `d[i]` is `L`) is at an index no greater
than the length of `d`: at most the terminator, never beyond it. -/
theorem wildcard_lookahead_in_bounds (d : List Char) (i idx : Nat) (hi : i < d.length)
    (h : idx ∈ wildcard_step_reads d i) : idx ≤ d.length :=
  wildcard_step_reads_le d i idx hi h

theorem wildcard_lookahead_in_bounds_witness :
    (wildcard_step_reads "L".toList 0 = [1, 1, 1]
      ∧ wildcard_step_reads "L*".toList 0 = [1, 1, 2, 1]
      ∧ wildcard_step_reads "L**".toList 0 = [1, 1, 2, 3, 1]
      ∧ wildcard_step_reads "L//".toList 0 = [1, 1, 1, 2, 3]
      ∧ wildcard_step_reads "aL***".toList 1 = [2, 2, 3, 4])
    ∧ 3 ≤ "L**".toList.length :=
  ⟨by decide, wildcard_lookahead_in_bounds "L**".toList 0 3 (by decide) (by decide)⟩

/-- C15: for all non-empty `a`, `b` such that none of `a`, `b`, `a ++ b` is
`L*;` and such that the last character of `a` and the first character of `b`
are not both `*` and not both `.`, `form_type_regex (a ++ b)` is
`form_type_regex a ++ form_type_regex b`. -/
theorem form_type_regex_append (a b : List Char) (ha : a ≠ []) (hb : b ≠ [])
    (hla : a ≠ "L*;".toList) (hlb : b ≠ "L*;".toList) (hlab : a ++ b ≠ "L*;".toList)
    (hstar : ¬ (a.getLast? = some '*' ∧ b.head? = some '*'))
    (hdot : ¬ (a.getLast? = some '.' ∧ b.head? = some '.')) :
    form_type_regex (a ++ b) = form_type_regex a ++ form_type_regex b := by
  rw [form_type_regex_eq_scan (a ++ b) (by simp [ha]) hlab, form_type_regex_eq_scan a ha hla,
    form_type_regex_eq_scan b hb hlb]
  exact type_scan_append a.length a b (Nat.le_refl _) ⟨hstar, hdot⟩

theorem form_type_regex_append_witness :
    form_type_regex ("La/**".toList ++ "/..b;".toList)
      = form_type_regex "La/**".toList ++ form_type_regex "/..b;".toList
    ∧ form_type_regex ("x*".toList ++ "...".toList)
      = "x(?:[^\\/\\[]*)".toList ++ "(?:\\[*(?:(?:B|S|I|J|Z|F|D|C)|L.*;))*".toList :=
  ⟨form_type_regex_append "La/**".toList "/..b;".toList (by decide) (by decide) (by decide)
      (by decide) (by decide) (by decide) (by decide),
   (form_type_regex_append "x*".toList "...".toList (by decide) (by decide) (by decide)
      (by decide) (by decide) (by decide) (by decide)).trans (by decide)⟩

/-- C16: for every non-empty spec without special characters,
`form_member_regex` returns the spec itself. -/
theorem form_member_regex_of_no_special (s : List Char) (hs : s ≠ [])
    (h : has_special_char s = false) : form_member_regex s = s := by
  rw [form_member_regex_of_ne_nil s hs, flatMap_congr_mem s member_image (fun c => [c])
    (fun c hc => member_image_plain c (not_reserved_of_no_special s h c hc)),
    flatMap_singleton_self]

theorem form_member_regex_of_no_special_witness :
    has_special_char "get/Name;L".toList = false
    ∧ form_member_regex "get/Name;L".toList = "get/Name;L".toList :=
  ⟨by decide, form_member_regex_of_no_special "get/Name;L".toList (by decide) (by decide)⟩

/-- C17: for every non-empty spec `s` without special characters,
`form_type_regex s` is `s` with every `/` replaced by `\/`, and it equals `s`
exactly when `s` holds no `/`. -/
theorem form_type_regex_of_no_special (s : List Char) (hs : s ≠ [])
    (h : has_special_char s = false) :
    form_type_regex s = s.flatMap slash_image
    ∧ (form_type_regex s = s ↔ '/' ∉ s) := by
  have hr := not_reserved_of_no_special s h
  have hw : ∀ c ∈ s, c ∉ wildcard_set := fun c hc hmem => hr c hc (wildcard_set_reserved c hmem)
  have heq : form_type_regex s = s.flatMap slash_image := by
    rw [form_type_regex_plain s hs hw]
    exact flatMap_congr_mem s type_image slash_image
      (fun c hc => type_image_not_reserved c (hr c hc))
  exact ⟨heq, by rw [heq]; exact flatMap_slash_image_eq_self s⟩

theorem form_type_regex_of_no_special_witness :
    form_type_regex "Lcom/foo/Bar;".toList = "Lcom\\/foo\\/Bar;".toList
    ∧ form_type_regex "Lcom/foo/Bar;".toList ≠ "Lcom/foo/Bar;".toList
    ∧ form_type_regex "LBar;".toList = "LBar;".toList :=
  have h1 := form_type_regex_of_no_special "Lcom/foo/Bar;".toList (by decide) (by decide)
  have h2 := form_type_regex_of_no_special "LBar;".toList (by decide) (by decide)
  ⟨h1.1.trans (by decide), fun e => absurd (h1.2.mp e) (by decide), h2.2.mpr (by decide)⟩

/-- C18: for every input, every `*` in `form_type_regex s` stands right after
one of `.`, `]`, `[`, `)`, and every `?` stands right after `(` and right
before `:`; so the output never begins with `*` and never holds `**`. -/
theorem form_type_regex_quantifier_safe (s pre post : List Char) (c : Char)
    (h : form_type_regex s = pre ++ c :: post) :
    (c = '*' → pre.getLast? ∈ [some '.', some ']', some '[', some ')'])
    ∧ (c = '?' → pre.getLast? = some '(' ∧ post.head? = some ':')
    ∧ (form_type_regex s).head? ≠ some '*'
    ∧ ¬ ("**".toList <:+: form_type_regex s) := by
  have hq := quantifier_safe_form_type_regex s
  refine ⟨(hq pre post c h).1, (hq pre post c h).2, fun hh => ?_, fun hi => ?_⟩
  · obtain ⟨u, hu⟩ := List.head?_eq_some_iff.mp hh
    exact absurd ((hq [] u '*' hu).1 rfl) (by decide)
  · obtain ⟨u, v, huv⟩ := hi
    have hdec : form_type_regex s = (u ++ ['*']) ++ '*' :: v := by
      rw [← huv]; simp
    have := (hq (u ++ ['*']) v '*' hdec).1 rfl
    have hl : (u ++ ['*']).getLast? = some '*' := by simp
    rw [hl] at this
    exact absurd this (by decide)

theorem form_type_regex_quantifier_safe_witness :
    form_type_regex "?*".toList = "[^\\/\\[](?".toList ++ ':' :: "[^\\/\\[]*)".toList
    ∧ ("[^\\/\\[](?:[^\\/\\[]".toList).getLast? ∈ [some '.', some ']', some '[', some ')']
    ∧ (form_type_regex "?*".toList).head? ≠ some '*' :=
  have h := form_type_regex_quantifier_safe "?*".toList "[^\\/\\[](?:[^\\/\\[]".toList
    ")".toList '*' (by decide)
  ⟨by decide, h.1 rfl, h.2.2.1⟩

end ProguardRegex
